import Mathlib

/-!
# JSON value model and renderer (`include/Types.hpp`, `src/main.cpp`)

A shallow embedding of the value classes `JsonNull`, `JsonString`, `JsonNumber`,
`JsonArray`, `JsonObject`, of the handle `JsonValue` and of `JsonDocument`,
followed by the properties of the rendering and construction functions.

Conventions of the embedding:

* `std::string` is a `String`; a stream is the text written to it so far.
* `int indent` is an integer; the loop `for(auto i=0;i<indent;i++)` runs
  `indent.toNat` times. Signed overflow of `indent+1` has no defined behaviour in
  C++, so the unbounded integer describes every defined execution; `strChecked`
  is the rendering with that addition checked against `INT_MAX`.
* A `std::shared_ptr<JsonData>` child of a node is a node: the tree type holds
  well-formed trees (no absent child). Where a pointer may be absent at the
  surface (`JsonValue::sp_data`, `JsonDocument::p_data`) it is an `Option`, and a
  dereference of an absent pointer makes the result `none`.
* `std::unordered_map` is the list of its entries in iteration order. Where the
  standard library is free to choose that order (after a new key is added) the
  choice is a parameter, `HashOrder`.
-/

namespace JsonParse

/-! ## Numbers -/

/-- A single-precision datum given by its value: `finite sign mant exp` stands for
`(-1)^sign * mant * 2^exp`; the two infinities and the NaNs carry their sign. -/
inductive Float32 where
  | finite (sign : Bool) (mant : Nat) (exp : Int)
  | inf (sign : Bool)
  | nan (sign : Bool)
  deriving DecidableEq

namespace Float32

/-- The datum fits the binary32 format: 24 significant bits, exponent of the least
significant bit between -149 and 104. -/
def Representable : Float32 → Prop
  | finite _ mant exp => mant < 2 ^ 24 ∧ -149 ≤ exp ∧ exp ≤ 104
  | inf _ => True
  | nan _ => True

/-- The rational value of a finite datum. -/
def value : Float32 → Option ℚ
  | finite sign mant exp => some ((if sign then -1 else 1) * (mant : ℚ) * 2 ^ exp)
  | inf _ => none
  | nan _ => none

/-- The number of binary digits of `n`, computed with `fuel` halvings at most. -/
def bitLengthAux : Nat → Nat → Nat
  | 0, _ => 0
  | fuel + 1, n => if n = 0 then 0 else bitLengthAux fuel (n / 2) + 1

/-- The number of binary digits of `n` (0 for 0). -/
def bitLength (n : Nat) : Nat := bitLengthAux n n

/-- The conversion `float(n)` of an `int`: the nearest value with 24 significant
bits, ties to the even significand. -/
def ofInt (n : Int) : Float32 :=
  let a := n.natAbs
  let shift := bitLength a - 24
  let q := a / 2 ^ shift
  let r := a % 2 ^ shift
  let up : Bool := decide (2 ^ shift < 2 * r) || (decide (2 * r = 2 ^ shift) && decide (q % 2 = 1))
  finite (decide (n < 0)) (if up then q + 1 else q) shift

/-- The conversion `int(f)`: the value truncated toward zero; `none` where the
truncated value is no `int` (the conversion is then undefined). -/
def toInt? : Float32 → Option Int
  | finite sign mant exp =>
      let mag : Nat := if 0 ≤ exp then mant * 2 ^ exp.toNat else mant / 2 ^ (-exp).toNat
      let v : Int := if sign then -(mag : Int) else (mag : Int)
      if -2 ^ 31 ≤ v ∧ v < 2 ^ 31 then some v else none
  | inf _ => none
  | nan _ => none

/-- The text `std::to_string(float)` produces, that of `printf("%f")`: six digits
after the point, the exact value rounded to nearest, ties to even. -/
def to_string : Float32 → String
  | finite sign mant exp =>
      let num : Nat := if 0 ≤ exp then mant * 2 ^ exp.toNat * 10 ^ 6 else mant * 10 ^ 6
      let den : Nat := if 0 ≤ exp then 1 else 2 ^ (-exp).toNat
      let q := num / den
      let r := num % den
      let up : Bool := decide (den < 2 * r) || (decide (2 * r = den) && decide (q % 2 = 1))
      let scaled := if up then q + 1 else q
      let frac := toString (scaled % 10 ^ 6)
      (if sign then "-" else "") ++ toString (scaled / 10 ^ 6) ++ "."
        ++ String.mk (List.replicate (6 - frac.length) '0') ++ frac
  | inf sign => if sign then "-inf" else "inf"
  | nan sign => if sign then "-nan" else "nan"

end Float32

/-- The payload `std::variant<float,int32_t>` of a `JsonNumber`. -/
inductive NumberData where
  | float (value : Float32)
  | int (value : Int)
  deriving DecidableEq

/-! ## Value nodes -/

/-- The discriminant `JsonData::Type`. -/
inductive JsonType where
  | Null
  | String
  | Number
  | Object
  | Array
  | Boolean
  deriving DecidableEq

/-- A node of the tree: one constructor for each class deriving from `JsonData`
(`JsonNull`, `JsonString`, `JsonNumber`, `JsonArray`, `JsonObject`). `array`
holds `m_data` in vector order, `object` holds `m_data` in iteration order. -/
inductive JsonData where
  | null
  | string (data : String)
  | number (data : NumberData)
  | array (m_data : List JsonData)
  | object (m_data : List (String × JsonData))

/-- The text of `indent` tab characters (none for a negative `indent`), what `for(auto i=0;i<indent;i++)ss<<"\t";`
writes. -/
def tabs (indent : Int) : String := String.mk (List.replicate indent.toNat '\t')

namespace JsonData

/-- Method `JsonData::type()`: the discriminant each class passes to the base
constructor. -/
def type : JsonData → JsonType
  | null => JsonType.Null
  | string _ => JsonType.String
  | number _ => JsonType.Number
  | array _ => JsonType.Array
  | object _ => JsonType.Object

mutual
/-- The virtual `str(int indent)` of each class. -/
def str : JsonData → Int → String
  | null, _ => "null"
  | string data, _ => "\"" ++ data ++ "\""
  | number (NumberData.int v), _ => toString v
  | number (NumberData.float f), _ => f.to_string
  | array m_data, indent => "[" ++ strItems m_data indent ++ "]"
  | object m_data, indent => "\x7b\n" ++ strEntries m_data indent ++ tabs indent ++ "\x7d"
/-- The loop of `JsonArray::str` over the remaining elements: the element's text,
then `", "` unless the element is the last one. -/
def strItems : List JsonData → Int → String
  | [], _ => ""
  | x :: rest, indent =>
      x.str (indent + 1) ++ (if rest.isEmpty then "" else ", ") ++ strItems rest indent
/-- The loop of `JsonObject::str` over the remaining entries: `indent` tabs, a tab
and the quoted key, a colon, the child's text, a comma unless the advanced
iterator is at the end, a newline. -/
def strEntries : List (String × JsonData) → Int → String
  | [], _ => ""
  | (key, child) :: rest, indent =>
      tabs indent ++ "\t\"" ++ key ++ "\":" ++ child.str (indent + 1)
        ++ (if rest.isEmpty then "" else ",") ++ "\n" ++ strEntries rest indent
end

/-- The node is of a kind without children. -/
def isLeaf : JsonData → Bool
  | null => true
  | string _ => true
  | number _ => true
  | array _ => false
  | object _ => false

end JsonData

/-- Class `JsonString`. -/
structure JsonString where
  data : String

namespace JsonString

/-- The node the object is, seen through the base class. -/
def toData (s : JsonString) : JsonData := JsonData.string s.data

/-- Method `JsonString::str`. -/
def str (s : JsonString) (indent : Int) : String := s.toData.str indent

end JsonString

/-- Class `JsonNumber`. -/
structure JsonNumber where
  data : NumberData

namespace JsonNumber

/-- Constructor `JsonNumber()`: the member initialiser `data = 0.0f`. -/
def default : JsonNumber := ⟨NumberData.float (Float32.finite false 0 0)⟩

/-- Constructor `JsonNumber(int value)`. -/
def ofInt (value : Int) : JsonNumber := ⟨NumberData.int value⟩

/-- Constructor `JsonNumber(float value)`. -/
def ofFloat (value : Float32) : JsonNumber := ⟨NumberData.float value⟩

/-- The node the object is, seen through the base class. -/
def toData (x : JsonNumber) : JsonData := JsonData.number x.data

/-- Method `JsonNumber::str`. -/
def str (x : JsonNumber) (indent : Int) : String := x.toData.str indent

/-- Method `isInteger()`: the variant holds the `int` alternative. -/
def isInteger (x : JsonNumber) : Bool :=
  match x.data with
  | NumberData.int _ => true
  | NumberData.float _ => false

/-- Method `isFloat()`: the variant holds the `float` alternative. -/
def isFloat (x : JsonNumber) : Bool :=
  match x.data with
  | NumberData.int _ => false
  | NumberData.float _ => true

/-- Method `asFloat()`, declared `float`: `isInteger()?float(get<int>):get<float>`. -/
def asFloat (x : JsonNumber) : Float32 :=
  match x.data with
  | NumberData.int i => Float32.ofInt i
  | NumberData.float f => f

/-- Method `asInteger()`, declared `float`: the `int` value of
`isFloat()?int(get<float>):get<int>` converted to the return type `float`. -/
def asInteger (x : JsonNumber) : Option Float32 :=
  match x.data with
  | NumberData.float f => f.toInt?.map Float32.ofInt
  | NumberData.int i => some (Float32.ofInt i)

end JsonNumber

/-- Class `JsonArray`: `m_data` in vector order. -/
structure JsonArray where
  m_data : List JsonData

namespace JsonArray

/-- Constructor `JsonArray()`. -/
def default : JsonArray := ⟨[]⟩

/-- Constructor `JsonArray(const std::vector<std::shared_ptr<JsonData>>& values)`:
`m_data(values.begin(),values.end())`. -/
def ofValues (values : List JsonData) : JsonArray := ⟨values⟩

/-- The bytes `printf("%s")` takes from `c_str()`: those before the first NUL. -/
def c_str (s : String) : String := String.mk (s.data.takeWhile (fun c => c ≠ '\x00'))

/-- What the constructor `JsonArray(values)` prints on standard output. -/
def ofValues_stdout (values : List JsonData) : String :=
  "json array created\n"
    ++ String.join (values.map (fun value => "value: " ++ c_str (value.str 0) ++ "\n"))

/-- Method `push_back(item)`: `m_data.emplace_back(item)`. -/
def push_back (a : JsonArray) (item : JsonData) : JsonArray := ⟨a.m_data ++ [item]⟩

/-- Method `pop_back()`: `m_data.pop_back()`, undefined on an empty vector. -/
def pop_back (a : JsonArray) : Option JsonArray :=
  if a.m_data.isEmpty then none else some ⟨a.m_data.dropLast⟩

/-- Method `size()`. -/
def size (a : JsonArray) : Nat := a.m_data.length

/-- Method `data()`: a copy of `m_data`. -/
def data (a : JsonArray) : List JsonData := a.m_data

/-- The node the object is, seen through the base class. -/
def toData (a : JsonArray) : JsonData := JsonData.array a.m_data

/-- Method `JsonArray::str`. -/
def str (a : JsonArray) (indent : Int) : String := a.toData.str indent

end JsonArray

/-! ## The unordered map of an object -/

/-- The choice the standard library makes when a new key enters a
`std::unordered_map`: the iteration order of the entries afterwards, some
rearrangement of the new entry and the old ones. -/
structure HashOrder where
  arrange : List (String × JsonData) → List (String × JsonData)
  perm : ∀ l, List.Perm (arrange l) l

namespace HashOrder

/-- The order in which a new entry is always iterated first. -/
def front : HashOrder := ⟨fun l => l, fun l => List.Perm.refl l⟩

/-- The order in which a new entry is always iterated last. -/
def back : HashOrder :=
  ⟨fun l => l.tail ++ l.head?.toList, fun l => by
    cases l with
    | nil => exact List.Perm.refl _
    | cons a t => exact List.perm_append_comm⟩

end HashOrder

/-! The operations of `std::unordered_map<std::string,std::shared_ptr<JsonData>>`
that the object uses, on the list of entries in iteration order. -/

namespace UMap

/-- The mapped value `find(key)` points to, `none` for `end()`. -/
def find : List (String × JsonData) → String → Option JsonData
  | [], _ => none
  | (k, v) :: rest, key => if k = key then some v else find rest key

/-- Whether `key` is a key of the map. -/
def contains (m : List (String × JsonData)) (key : String) : Bool :=
  m.any (fun e => decide (e.1 = key))

/-- Member `insert(value)` of the map: no effect when the key is present. -/
def insert (h : HashOrder) (m : List (String × JsonData)) (e : String × JsonData) :
    List (String × JsonData) :=
  if contains m e.1 then m else h.arrange (e :: m)

/-- Member `insert_or_assign(key, value)`: the mapped value is replaced in place
when the key is present. -/
def insert_or_assign (h : HashOrder) (m : List (String × JsonData)) (key : String)
    (value : JsonData) : List (String × JsonData) :=
  if contains m key then m.map (fun e => if e.1 = key then (e.1, value) else e)
  else h.arrange ((key, value) :: m)

/-- The range constructor `unordered_map(first, last)`: it inserts the elements of
the range one after the other, each as `insert` does, so an element whose key is
already present is dropped. -/
def ofRange (h : HashOrder) (values : List (String × JsonData)) : List (String × JsonData) :=
  values.foldl (insert h) []

/-- Member `erase(key)`: the other entries keep their relative order. -/
def erase (m : List (String × JsonData)) (key : String) : List (String × JsonData) :=
  m.filter (fun e => decide (e.1 ≠ key))

end UMap

/-- Class `JsonObject`: `m_data` in iteration order. -/
structure JsonObject where
  m_data : List (String × JsonData)

namespace JsonObject

/-- Constructor `JsonObject()`. -/
def default : JsonObject := ⟨[]⟩

/-- Constructor `JsonObject(const ObjectList& values)`:
`m_data(values.begin(),values.end())`. -/
def ofList (h : HashOrder) (values : List (String × JsonData)) : JsonObject :=
  ⟨UMap.ofRange h values⟩

/-- Method `insert(key, value)`: `m_data.insert_or_assign(key,value)`. -/
def insert (h : HashOrder) (o : JsonObject) (key : String) (value : JsonData) : JsonObject :=
  ⟨UMap.insert_or_assign h o.m_data key value⟩

/-- Method `erase(key)`. -/
def erase (o : JsonObject) (key : String) : JsonObject := ⟨UMap.erase o.m_data key⟩

/-- Method `size()`. -/
def size (o : JsonObject) : Nat := o.m_data.length

/-- Method `data()`: a copy of `m_data`. -/
def data (o : JsonObject) : List (String × JsonData) := o.m_data

/-- The value bound to `key`: `data().find(key)`. -/
def find (o : JsonObject) (key : String) : Option JsonData := UMap.find o.m_data key

/-- Whether `key` is bound: `data().count(key)` is 1. -/
def contains (o : JsonObject) (key : String) : Bool := UMap.contains o.m_data key

/-- The node the object is, seen through the base class. -/
def toData (o : JsonObject) : JsonData := JsonData.object o.m_data

/-- Method `JsonObject::str`. -/
def str (o : JsonObject) (indent : Int) : String := o.toData.str indent

end JsonObject

/-! ## Handles and documents -/

/-- Struct `JsonValue`: the shared pointer `sp_data`, `none` when it is null. -/
structure JsonValue where
  sp_data : Option JsonData

/-- The pointers `value.sp_data` copied into `_values`, when none of them is null. -/
def derefValues : List JsonValue → Option (List JsonData)
  | [] => some []
  | value :: rest =>
      match value.sp_data, derefValues rest with
      | some node, some nodes => some (node :: nodes)
      | _, _ => none

/-- The pairs `{value.first, value.second.sp_data}` copied into `_values`, when no
pointer among them is null. -/
def derefPairs : List (String × JsonValue) → Option (List (String × JsonData))
  | [] => some []
  | value :: rest =>
      match value.2.sp_data, derefPairs rest with
      | some node, some nodes => some ((value.1, node) :: nodes)
      | _, _ => none

namespace JsonValue

/-- Constructor `JsonValue()`. -/
def default : JsonValue := ⟨some JsonData.null⟩

/-- Constructor `JsonValue(void*)`. -/
def ofPointer : JsonValue := ⟨some JsonData.null⟩

/-- Constructor `JsonValue(int value)`. -/
def ofInt (value : Int) : JsonValue := ⟨some (JsonNumber.ofInt value).toData⟩

/-- Constructor `JsonValue(float value)`. -/
def ofFloat (value : Float32) : JsonValue := ⟨some (JsonNumber.ofFloat value).toData⟩

/-- Constructor `JsonValue(const std::string& value)`. -/
def ofString (value : String) : JsonValue := ⟨some (JsonString.mk value).toData⟩

/-- Constructor `JsonValue(const ValueList& values)`. The array constructor calls
`str` through every pointer, so a null pointer among them leaves no result. -/
def ofValueList (values : List JsonValue) : Option JsonValue :=
  (derefValues values).map (fun _values => ⟨some (JsonArray.ofValues _values).toData⟩)

/-- Constructor `JsonValue(const ObjectList& values)`. With a null pointer among
the values the object would hold an absent child, which the tree type leaves
out: no result, although the code then still builds a handle. -/
def ofObjectList (h : HashOrder) (values : List (String × JsonValue)) : Option JsonValue :=
  (derefPairs values).map (fun _values => ⟨some (JsonObject.ofList h _values).toData⟩)

/-- Method `valid()`: `sp_data!=nullptr`. -/
def valid (v : JsonValue) : Bool := v.sp_data.isSome

/-- Method `type()`: `sp_data->type()`. -/
def type (v : JsonValue) : Option JsonType := v.sp_data.map JsonData.type

/-- Method `str(indent)`: `sp_data->str(indent)`. -/
def str (v : JsonValue) (indent : Int) : Option String :=
  v.sp_data.map (fun node => node.str indent)

end JsonValue

/-- Class `JsonDocument`: the unique pointer `p_data`, `none` when it is null. -/
structure JsonDocument where
  p_data : Option JsonData

namespace JsonDocument

/-- Constructor `JsonDocument(){}`: `p_data` keeps its initialiser `nullptr`. -/
def default : JsonDocument := ⟨none⟩

/-- Constructor `JsonDocument(const ValueList& values)`. -/
def ofValueList (values : List JsonValue) : Option JsonDocument :=
  (derefValues values).map (fun _values => ⟨some (JsonArray.ofValues _values).toData⟩)

/-- What `JsonDocument(const ValueList& values)` prints on standard output. -/
def ofValueList_stdout (values : List JsonValue) : Option String :=
  (derefValues values).map (fun _values => "crating json array\n" ++ JsonArray.ofValues_stdout _values)

/-- Constructor `JsonDocument(const ObjectList& values)`. With a null pointer among
the values the root Object would hold an absent child, which the tree type
leaves out: no result, although the code then still builds a document. -/
def ofObjectList (h : HashOrder) (values : List (String × JsonValue)) : Option JsonDocument :=
  (derefPairs values).map (fun _values => ⟨some (JsonObject.ofList h _values).toData⟩)

/-- Constructor `JsonDocument(const SValueList& values)`. -/
def ofSValueList (values : List JsonData) : JsonDocument :=
  ⟨some (JsonArray.ofValues values).toData⟩

/-- Constructor `JsonDocument(const SObjectList& values)`. -/
def ofSObjectList (h : HashOrder) (values : List (String × JsonData)) : JsonDocument :=
  ⟨some (JsonObject.ofList h values).toData⟩

/-- Method `valid()`: `p_data!=nullptr`. -/
def valid (d : JsonDocument) : Bool := d.p_data.isSome

/-- The stream after `os<<document`: `document.p_data->str(0)` and `std::endl` are
appended; `none` when `p_data` is null, the dereference being undefined. -/
def write (os : String) (document : JsonDocument) : Option String :=
  document.p_data.map (fun root => os ++ root.str 0 ++ "\n")

end JsonDocument

/-! ## The object block in the words of the specification -/

namespace Spec

/-- The line of entry number `i` (counted from 1) among `n` at indent level `L`:
`L+1` tab characters, the quoted key, a colon, the child rendered at `L+1`, a
comma iff `i < n`, a newline. -/
def entryLine (L n i : Nat) (key : String) (child : JsonData) : String :=
  String.mk (List.replicate (L + 1) '\t') ++ "\"" ++ key ++ "\"" ++ ":"
    ++ child.str ((L : Int) + 1) ++ (if i < n then "," else "") ++ "\n"

/-- The entry lines of a block, one for each entry, in the order of the entries. -/
def entryLines (L : Nat) (entries : List (String × JsonData)) : List String :=
  entries.enum.map (fun p => entryLine L entries.length (p.1 + 1) p.2.1 p.2.2)

/-- The block: the opening brace and a newline, the entry lines, `L` tab characters
and the closing brace. -/
def objectBlock (L : Nat) (entries : List (String × JsonData)) : String :=
  "\x7b\n" ++ String.join (entryLines L entries) ++ String.mk (List.replicate L '\t') ++ "\x7d"

end Spec

/-! ## Sample values -/

namespace Example

/-- The Number node built from the `int` 1. -/
def one : JsonData := (JsonNumber.ofInt 1).toData

/-- The Number node built from the `int` 2. -/
def two : JsonData := (JsonNumber.ofInt 2).toData

/-- An Object that binds `a` to 1 and `b` to the String `hi`. -/
def ab : JsonObject := ⟨[("a", one), ("b", JsonData.string "hi")]⟩

end Example

/-! ## Calls with a `bool` argument -/

namespace JsonValue

/-- The handle `JsonValue(b)` for a `bool` argument. No constructor takes `bool`;
of `JsonValue(void*)`, `JsonValue(int)`, `JsonValue(float)` and the others, overload
resolution selects `JsonValue(int)`, reached by integral promotion, with the
value 1 for `true` and 0 for `false`. -/
def ofBool (b : Bool) : JsonValue := ofInt (if b then 1 else 0)

end JsonValue

/-! ## Truncation in the words of the specification -/

namespace Spec

/-- The rational `q` truncated toward zero: the floor of a non-negative `q`, the
ceiling of a negative one. -/
def trunc (q : ℚ) : Int := if 0 ≤ q then ⌊q⌋ else ⌈q⌉

end Spec

/-! ## Measures of a tree -/

namespace JsonData

mutual
/-- No String payload and no key of the tree holds a character of `cs`. -/
def avoids (cs : List Char) : JsonData → Bool
  | null => true
  | string data => data.data.all (fun c => decide (c ∉ cs))
  | number _ => true
  | array m_data => avoidsItems cs m_data
  | object m_data => avoidsEntries cs m_data
/-- The children of an Array avoid `cs`. -/
def avoidsItems (cs : List Char) : List JsonData → Bool
  | [] => true
  | x :: rest => x.avoids cs && avoidsItems cs rest
/-- The keys and the children of an Object avoid `cs`. -/
def avoidsEntries (cs : List Char) : List (String × JsonData) → Bool
  | [] => true
  | (key, child) :: rest =>
      key.data.all (fun c => decide (c ∉ cs)) && child.avoids cs && avoidsEntries cs rest
end

mutual
/-- The number of nodes of type `kind` in the tree. -/
def count (kind : JsonType) : JsonData → Nat
  | null => if JsonType.Null = kind then 1 else 0
  | string _ => if JsonType.String = kind then 1 else 0
  | number _ => if JsonType.Number = kind then 1 else 0
  | array m_data => (if JsonType.Array = kind then 1 else 0) + countItems kind m_data
  | object m_data => (if JsonType.Object = kind then 1 else 0) + countEntries kind m_data
/-- The number of nodes of type `kind` below an Array. -/
def countItems (kind : JsonType) : List JsonData → Nat
  | [] => 0
  | x :: rest => x.count kind + countItems kind rest
/-- The number of nodes of type `kind` below an Object. -/
def countEntries (kind : JsonType) : List (String × JsonData) → Nat
  | [] => 0
  | (_, child) :: rest => child.count kind + countEntries kind rest
end

end JsonData

/-! ## Lines and brackets in the words of the specification -/

namespace Spec

/-- The four bracket characters. -/
def brackets : List Char := ['[', ']', '\x7b', '\x7d']

/-- Every prefix of the text has at least as many openers `o` as closers `c`. -/
def prefixBalanced (o c : Char) (text : List Char) : Prop :=
  ∀ k : Nat, (text.take k).count c ≤ (text.take k).count o

/-- The text made of the line `first` and the lines `rest`, a newline before each
line of `rest`. -/
def joinLines (first : List Char) (rest : List (List Char)) : List Char :=
  first ++ (rest.map (fun line => '\n' :: line)).flatten

/-- The line begins with exactly `p.1` tab characters followed by the character
`p.2`, which is neither a tab nor a newline. -/
def startsWith (p : Nat × Char) (line : List Char) : Prop :=
  p.2 ≠ '\t' ∧ p.2 ≠ '\n' ∧ (List.replicate p.1 '\t' ++ [p.2]) <+: line

mutual
/-- The starts of the lines that follow the first line in the rendering of a node
with `d` enclosing containers: for an Object, `d+1` tabs and the double quote for
each entry line, then what the entry's child adds, and `d` tabs and the closing
brace for the last line; an Array adds what its children add. -/
def lineStarts : JsonData → Nat → List (Nat × Char)
  | JsonData.null, _ => []
  | JsonData.string _, _ => []
  | JsonData.number _, _ => []
  | JsonData.array m_data, d => lineStartsItems m_data d
  | JsonData.object m_data, d => lineStartsEntries m_data d ++ [(d, '\x7d')]
/-- The line starts the children of an Array with `d` enclosing containers add. -/
def lineStartsItems : List JsonData → Nat → List (Nat × Char)
  | [], _ => []
  | x :: rest, d => lineStarts x (d + 1) ++ lineStartsItems rest d
/-- The line starts of the entries of an Object with `d` enclosing containers. -/
def lineStartsEntries : List (String × JsonData) → Nat → List (Nat × Char)
  | [], _ => []
  | (_, child) :: rest, d =>
      (d + 1, '\x22') :: (lineStarts child (d + 1) ++ lineStartsEntries rest d)
end

/-- The text has one line after its first line for each element of the list, and
each such line starts as the element says. -/
def LinesStart : List (Nat × Char) → List Char → Prop
  | [], text => '\n' ∉ text
  | p :: ps, text =>
      ∃ a rest : List Char, text = a ++ '\n' :: rest ∧ '\n' ∉ a ∧ startsWith p rest ∧
        LinesStart ps rest

end Spec

namespace Example

/-- The Object that binds `list` to the Array of 1 and of the Object binding `k`
to 1. -/
def nested : JsonData :=
  JsonData.object [("list", JsonData.array [one, JsonData.object [("k", one)]])]

end Example

/-! ## Rendering with the arithmetic of `int` checked -/

/-- The greatest `int`. -/
def INT_MAX : Int := 2147483647

namespace JsonData

mutual
/-- The greatest number of evaluations of `indent+1` nested in one another while
the node is rendered: 0 for a leaf and for a container without a child, else one
more than the depth of the deepest child. -/
def depth : JsonData → Nat
  | null => 0
  | string _ => 0
  | number _ => 0
  | array m_data => depthItems m_data
  | object m_data => depthEntries m_data
/-- The depth the children of an Array give it. -/
def depthItems : List JsonData → Nat
  | [] => 0
  | x :: rest => max (x.depth + 1) (depthItems rest)
/-- The depth the children of an Object give it. -/
def depthEntries : List (String × JsonData) → Nat
  | [] => 0
  | (_, child) :: rest => max (child.depth + 1) (depthEntries rest)
end

mutual
/-- The virtual `str(int indent)` with the addition `indent+1` checked: `none` as
soon as an evaluated `indent+1` exceeds `INT_MAX`, signed overflow being
undefined. -/
def strChecked : JsonData → Int → Option String
  | null, _ => some "null"
  | string data, _ => some ("\"" ++ data ++ "\"")
  | number (NumberData.int v), _ => some (toString v)
  | number (NumberData.float f), _ => some f.to_string
  | array m_data, indent =>
      (strItemsChecked m_data indent).map (fun items => "[" ++ items ++ "]")
  | object m_data, indent =>
      (strEntriesChecked m_data indent).map
        (fun entries => "\x7b\n" ++ entries ++ tabs indent ++ "\x7d")
/-- The loop of `JsonArray::str`, the argument `indent+1` checked at each element. -/
def strItemsChecked : List JsonData → Int → Option String
  | [], _ => some ""
  | x :: rest, indent =>
      if indent + 1 ≤ INT_MAX then
        match x.strChecked (indent + 1), strItemsChecked rest indent with
        | some text, some texts => some (text ++ (if rest.isEmpty then "" else ", ") ++ texts)
        | _, _ => none
      else none
/-- The loop of `JsonObject::str`, the argument `indent+1` checked at each entry. -/
def strEntriesChecked : List (String × JsonData) → Int → Option String
  | [], _ => some ""
  | (key, child) :: rest, indent =>
      if indent + 1 ≤ INT_MAX then
        match child.strChecked (indent + 1), strEntriesChecked rest indent with
        | some text, some texts =>
            some (tabs indent ++ "\t\"" ++ key ++ "\":" ++ text
              ++ (if rest.isEmpty then "" else ",") ++ "\n" ++ texts)
        | _, _ => none
      else none
end

end JsonData

/-! ## Texts -/

theorem tabs_natCast (n : Nat) : tabs (n : Int) = String.mk (List.replicate n '\t') := by
  simp [tabs]

theorem tabs_succ (n : Nat) : tabs ((n : Int) + 1) = tabs (n : Int) ++ "\t" := by
  have h : ((n : Int) + 1).toNat = n + 1 := by omega
  apply String.ext
  simp [tabs, h, List.replicate_succ']

theorem join_cons (a : String) (l : List String) :
    String.join (a :: l) = a ++ String.join l := by
  apply String.ext
  simp

theorem intercalateGo_eq (sep : String) (l : List String) (acc : String) :
    String.intercalate.go acc sep l = acc ++ String.join (l.map (fun x => sep ++ x)) := by
  induction l generalizing acc with
  | nil => apply String.ext; simp [String.intercalate.go]
  | cons a t ih =>
    simp only [String.intercalate.go, ih, List.map_cons, join_cons]
    apply String.ext
    simp [List.append_assoc]

theorem intercalate_cons_cons (sep a b : String) (l : List String) :
    String.intercalate sep (a :: b :: l) = a ++ sep ++ String.intercalate sep (b :: l) := by
  simp only [String.intercalate, intercalateGo_eq, List.map_cons, join_cons]
  apply String.ext
  simp [List.append_assoc]

theorem intercalate_eq_join_intersperse (sep : String) (l : List String) :
    String.intercalate sep l = String.join (List.intersperse sep l) := by
  induction l with
  | nil => rfl
  | cons a t ih =>
    cases t with
    | nil => apply String.ext; simp [String.intercalate, String.intercalate.go]
    | cons b t =>
      rw [intercalate_cons_cons, ih, List.intersperse_cons₂, join_cons, join_cons]
      apply String.ext
      simp [List.append_assoc]

theorem length_intersperse_add (sep : String) (l : List String) :
    (List.intersperse sep l).length = l.length + (l.length - 1) := by
  induction l with
  | nil => rfl
  | cons a t ih =>
    cases t with
    | nil => rfl
    | cons b t =>
      rw [List.intersperse_cons₂, List.length_cons, List.length_cons, ih]
      simp only [List.length_cons]
      omega

/-! ## Arrays -/

theorem strItems_eq_intercalate (m_data : List JsonData) (indent : Int) :
    JsonData.strItems m_data indent
      = String.intercalate ", " (m_data.map (fun c => c.str (indent + 1))) := by
  induction m_data with
  | nil => simp [JsonData.strItems, String.intercalate]
  | cons x rest ih =>
    cases rest with
    | nil =>
      apply String.ext
      simp [JsonData.strItems, String.intercalate, String.intercalate.go]
    | cons y rest =>
      rw [JsonData.strItems, ih]
      simp only [List.map_cons, intercalate_cons_cons]
      simp

theorem array_str_eq (m_data : List JsonData) (indent : Int) :
    (JsonData.array m_data).str indent
      = "[" ++ String.intercalate ", " (m_data.map (fun c => c.str (indent + 1))) ++ "]" := by
  rw [JsonData.str, strItems_eq_intercalate]

/-! ## Leaves -/

/-- C1 (code defect). The default constructor `JsonDocument(){}` leaves `p_data`
null: there is no Null root, `valid()` is false, and `os<<document` dereferences
the null pointer, so no text `null` plus line break is written. The sibling
`JsonValue()` does allocate a Null node, and a document whose root is a Null
node is written as `null` plus a line break. -/
theorem C1_default_document_has_no_root :
    JsonDocument.default.p_data = none ∧ JsonDocument.default.valid = false ∧
    (∀ os : String, JsonDocument.write os JsonDocument.default = none) ∧
    JsonValue.default.sp_data = some JsonData.null ∧
    (∀ os : String, JsonDocument.write os ⟨some JsonData.null⟩ = some (os ++ "null" ++ "\n")) :=
  ⟨rfl, rfl, fun _ => rfl, rfl, fun _ => rfl⟩

/-- C8. For every leaf node (Null, String or Number; the code has no Boolean class)
and all indent levels `i` and `j`, `str(i)` equals `str(j)`. -/
theorem C8_leaf_str_ignores_indent (x : JsonData) (hleaf : x.isLeaf = true) (i j : Int) :
    x.str i = x.str j := by
  cases x with
  | null => rfl
  | string data => rfl
  | number data => cases data <;> rfl
  | array m_data => simp [JsonData.isLeaf] at hleaf
  | object m_data => simp [JsonData.isLeaf] at hleaf

/-- Witness for C8 at the String node `z` and the indent levels 0 and 7. -/
theorem C8_leaf_str_ignores_indent_witness :
    (JsonData.string "z").isLeaf = true ∧
      (JsonData.string "z").str 0 = (JsonData.string "z").str 7 :=
  ⟨rfl, C8_leaf_str_ignores_indent (JsonData.string "z") rfl 0 7⟩

/-- C9. For every text `s` and indent, `JsonString(s).str` is the double quote,
`s` verbatim and the double quote, of length `length(s) + 2`. -/
theorem C9_string_str_verbatim (s : String) (indent : Int) :
    (JsonString.mk s).str indent = "\"" ++ s ++ "\"" ∧
    ((JsonString.mk s).str indent).data = "\"".data ++ s.data ++ "\"".data ∧
    ((JsonString.mk s).str indent).length = s.length + 2 := by
  refine ⟨rfl, ?_, ?_⟩
  · simp [JsonString.str, JsonString.toData, JsonData.str]
  · simp only [JsonString.str, JsonString.toData, JsonData.str, String.length_append]
    have : ("\"" : String).length = 1 := rfl
    omega

/-! ## Numbers -/

theorem bitLengthAux_le (fuel n k : Nat) (h : n < 2 ^ k) : Float32.bitLengthAux fuel n ≤ k := by
  induction fuel generalizing n k with
  | zero => simp [Float32.bitLengthAux]
  | succ f ih =>
    rw [Float32.bitLengthAux]
    split
    · omega
    · rename_i hn
      cases k with
      | zero => simp at h; omega
      | succ k =>
        have : n / 2 < 2 ^ k := by
          rw [Nat.pow_succ] at h
          omega
        have := ih (n / 2) k this
        omega

theorem ofInt_of_small (n : Int) (h : n.natAbs < 2 ^ 24) :
    Float32.ofInt n = Float32.finite (decide (n < 0)) n.natAbs 0 := by
  have hb : Float32.bitLength n.natAbs - 24 = 0 := by
    have := bitLengthAux_le n.natAbs n.natAbs 24 h
    unfold Float32.bitLength
    omega
  simp [Float32.ofInt, hb, Nat.mod_one]

theorem value_ofInt_of_small (n : Int) (h : n.natAbs < 2 ^ 24) :
    (Float32.ofInt n).value = some (n : ℚ) := by
  rw [ofInt_of_small n h]
  simp only [Float32.value, zpow_zero, mul_one, Option.some.injEq]
  obtain ⟨m, rfl | rfl⟩ := Int.eq_nat_or_neg n
  · simp
  · by_cases hm : m = 0
    · simp [hm]
    · have : (-(m : Int) < 0) := by omega
      simp [this]

/-- The readings of a Number built from an `int`: the integer alternative is
active, and `asInteger()` is exact while the magnitude is below `2^24`. -/
theorem ofInt_readings (n : Int) :
    (JsonNumber.ofInt n).isInteger = true ∧ (JsonNumber.ofInt n).isFloat = false ∧
    (JsonNumber.ofInt n).asInteger = some (Float32.ofInt n) ∧
    (n.natAbs < 2 ^ 24 → (JsonNumber.ofInt n).asInteger.bind Float32.value = some (n : ℚ)) :=
  ⟨rfl, rfl, rfl, fun h => value_ofInt_of_small n h⟩

/-- C10 (code defect). `asInteger()` is declared to return `float`, so the stored
`int` is converted to single precision on the way out: for the 32-bit integer
16777217 the integer alternative is active, yet `asInteger()` yields 16777216. -/
theorem C10_asInteger_rounds_to_float :
    (JsonNumber.ofInt 16777217).isInteger = true ∧
    (JsonNumber.ofInt 16777217).isFloat = false ∧
    (JsonNumber.ofInt 16777217).asInteger = some (Float32.finite false 8388608 1) ∧
    (JsonNumber.ofInt 16777217).asInteger.bind Float32.value = some (16777216 : ℚ) ∧
    (JsonNumber.ofInt 16777217).asInteger.bind Float32.value ≠ some (16777217 : ℚ) := by
  have h : (JsonNumber.ofInt 16777217).asInteger = some (Float32.finite false 8388608 1) := by
    decide
  refine ⟨rfl, rfl, h, ?_, ?_⟩
  · rw [h]; norm_num [Float32.value]
  · rw [h]; norm_num [Float32.value]

/-- C5. For every Array with children `c_1 ... c_n` and every indent level `L`,
`str(L)` is `[`, the texts `c_i.str(L+1)` separated by `", "`, and `]`: it starts
with `[`, ends with `]`, is made of the `n` child texts and `n-1` separators
between them, and is `[]` for no child. -/
theorem C5_array_str (children : List JsonData) (L : Int) :
    (JsonArray.ofValues children).str L
      = "[" ++ String.intercalate ", " (children.map (fun c => c.str (L + 1))) ++ "]" ∧
    ((JsonArray.ofValues children).str L).data.head? = some '[' ∧
    ((JsonArray.ofValues children).str L).data.getLast? = some ']' ∧
    (JsonArray.ofValues children).str L
      = "[" ++ String.join (List.intersperse ", " (children.map (fun c => c.str (L + 1)))) ++ "]" ∧
    (List.intersperse ", " (children.map (fun c => c.str (L + 1)))).length
      = children.length + (children.length - 1) ∧
    (JsonArray.ofValues []).str L = "[]" := by
  have h := array_str_eq children L
  refine ⟨h, ?_, ?_, ?_, ?_, rfl⟩
  · simp [JsonArray.str, JsonArray.toData, JsonArray.ofValues, h]
  · simp only [JsonArray.str, JsonArray.toData, JsonArray.ofValues, h, String.data_append]
    exact List.getLast?_concat _
  · rw [← intercalate_eq_join_intersperse]; exact h
  · simpa using length_intersperse_add ", " (children.map (fun c => c.str (L + 1)))

/-! ## Objects: rendering -/

theorem strEntries_eq_lines (L : Nat) (entries : List (String × JsonData)) (start total : Nat)
    (htotal : total = start + entries.length) :
    JsonData.strEntries entries (L : Int)
      = String.join ((entries.enumFrom start).map
          (fun p => Spec.entryLine L total (p.1 + 1) p.2.1 p.2.2)) := by
  induction entries generalizing start with
  | nil => rfl
  | cons e rest ih =>
    obtain ⟨key, child⟩ := e
    have hrest := ih (start + 1) (by simp only [List.length_cons] at htotal; omega)
    rw [JsonData.strEntries, hrest, List.enumFrom_cons, List.map_cons, join_cons]
    have hcomma : (if rest.isEmpty = true then "" else ",")
        = (if start + 1 < total then "," else ("" : String)) := by
      cases rest with
      | nil =>
        have : ¬ (start + 1 < total) := by simp at htotal; omega
        simp [this]
      | cons a t =>
        have : start + 1 < total := by simp at htotal; omega
        simp [this]
    rw [hcomma]
    apply String.ext
    simp [Spec.entryLine, tabs, List.replicate_succ', List.append_assoc]

theorem object_str_eq (L : Nat) (entries : List (String × JsonData)) :
    (JsonData.object entries).str (L : Int) = Spec.objectBlock L entries := by
  rw [JsonData.str, strEntries_eq_lines L entries 0 entries.length (by omega), tabs_natCast]
  rfl

/-- C4. For every Object with entries `(k_1,c_1) ... (k_n,c_n)` in iteration order
and every indent level `L ≥ 0`, `str(L)` is the opening brace and a newline,
then for each `i` the line made of `L+1` tabs, the quoted key, a colon,
`c_i.str(L+1)`, a comma iff `i < n`, and a newline, then `L` tabs and the closing
brace. There are `n` entry lines, and an empty Object renders as the opening
brace, a newline, `L` tabs and the closing brace. -/
theorem C4_object_str (entries : List (String × JsonData)) (L : Nat) :
    (JsonObject.mk entries).str (L : Int)
      = "\x7b\n" ++ String.join (entries.enum.map
            (fun p => Spec.entryLine L entries.length (p.1 + 1) p.2.1 p.2.2))
          ++ String.mk (List.replicate L '\t') ++ "\x7d" ∧
    (Spec.entryLines L entries).length = entries.length ∧
    (JsonObject.mk []).str (L : Int) = "\x7b\n" ++ String.mk (List.replicate L '\t') ++ "\x7d" ∧
    (JsonObject.mk []).str 0 = "\x7b\n\x7d" := by
  refine ⟨object_str_eq L entries, ?_, ?_, rfl⟩
  · simp [Spec.entryLines]
  · exact object_str_eq L []

/-! ## Objects: the map -/

theorem contains_iff (m : List (String × JsonData)) (key : String) :
    UMap.contains m key = true ↔ key ∈ m.map Prod.fst := by
  simp only [UMap.contains, List.any_eq_true, decide_eq_true_eq, List.mem_map]

theorem find_eq_none_iff (m : List (String × JsonData)) (key : String) :
    UMap.find m key = none ↔ key ∉ m.map Prod.fst := by
  induction m with
  | nil => simp [UMap.find]
  | cons e rest ih =>
    obtain ⟨k, v⟩ := e
    by_cases hk : k = key
    · simp [UMap.find, hk]
    · have hk2 : ¬ key = k := fun h => hk h.symm
      simp [UMap.find, hk, hk2, ih]

theorem mem_of_find (m : List (String × JsonData)) (key : String) (v : JsonData)
    (h : UMap.find m key = some v) : (key, v) ∈ m := by
  induction m with
  | nil => simp [UMap.find] at h
  | cons e rest ih =>
    obtain ⟨k, w⟩ := e
    by_cases hk : k = key
    · simp only [UMap.find, hk, if_true, Option.some.injEq] at h
      simp [hk, h]
    · simp only [UMap.find, hk, if_false] at h
      exact List.mem_cons_of_mem _ (ih h)

/-- The value found is `v` when `key` occurs and every entry with that key holds
`v`. -/
theorem find_of_unique (m : List (String × JsonData)) (key : String) (v : JsonData)
    (hex : key ∈ m.map Prod.fst) (huniq : ∀ e ∈ m, e.1 = key → e.2 = v) :
    UMap.find m key = some v := by
  cases hfind : UMap.find m key with
  | none => exact absurd hex ((find_eq_none_iff m key).1 hfind)
  | some w =>
    have := huniq (key, w) (mem_of_find m key w hfind) rfl
    simp only at this
    rw [this]

theorem find_of_mem_nodup (m : List (String × JsonData)) (key : String) (v : JsonData)
    (hnodup : (m.map Prod.fst).Nodup) (hmem : (key, v) ∈ m) : UMap.find m key = some v := by
  induction m with
  | nil => simp at hmem
  | cons e rest ih =>
    obtain ⟨k, w⟩ := e
    simp only [List.map_cons, List.nodup_cons] at hnodup
    rcases List.mem_cons.1 hmem with heq | hrest
    · cases heq
      simp [UMap.find]
    · have hk : k ≠ key := by
        intro hk
        apply hnodup.1
        rw [hk]
        exact List.mem_map_of_mem Prod.fst hrest
      simp only [UMap.find, hk, if_false]
      exact ih hnodup.2 hrest

/-- Lookup does not depend on the iteration order of a map with unique keys. -/
theorem find_perm (m₁ m₂ : List (String × JsonData)) (key : String) (hperm : List.Perm m₁ m₂)
    (hnodup : (m₂.map Prod.fst).Nodup) : UMap.find m₁ key = UMap.find m₂ key := by
  cases hfind : UMap.find m₂ key with
  | none =>
    rw [find_eq_none_iff] at hfind ⊢
    intro hmem
    exact hfind ((hperm.map Prod.fst).mem_iff.1 hmem)
  | some v =>
    have hnodup₁ : (m₁.map Prod.fst).Nodup := (hperm.map Prod.fst).nodup_iff.2 hnodup
    exact find_of_mem_nodup m₁ key v hnodup₁ (hperm.mem_iff.2 (mem_of_find m₂ key v hfind))

theorem nodup_insert (h : HashOrder) (m : List (String × JsonData)) (e : String × JsonData)
    (hnodup : (m.map Prod.fst).Nodup) : ((UMap.insert h m e).map Prod.fst).Nodup := by
  unfold UMap.insert
  split
  · exact hnodup
  · rename_i hc
    rw [contains_iff] at hc
    refine ((h.perm (e :: m)).map Prod.fst).nodup_iff.2 ?_
    simp only [List.map_cons, List.nodup_cons]
    exact ⟨hc, hnodup⟩

theorem find_insert (h : HashOrder) (m : List (String × JsonData)) (e : String × JsonData)
    (key : String) (hnodup : (m.map Prod.fst).Nodup) :
    UMap.find (UMap.insert h m e) key
      = if UMap.contains m e.1 then UMap.find m key
        else if e.1 = key then some e.2 else UMap.find m key := by
  unfold UMap.insert
  split
  · rfl
  · rename_i hc
    rw [contains_iff] at hc
    have hn : (((e :: m)).map Prod.fst).Nodup := by
      simp only [List.map_cons, List.nodup_cons]
      exact ⟨hc, hnodup⟩
    rw [find_perm _ _ key (h.perm (e :: m)) hn]
    obtain ⟨k, v⟩ := e
    rfl

theorem nodup_foldl_insert (h : HashOrder) (values acc : List (String × JsonData))
    (hnodup : (acc.map Prod.fst).Nodup) :
    ((values.foldl (UMap.insert h) acc).map Prod.fst).Nodup := by
  induction values generalizing acc with
  | nil => exact hnodup
  | cons e rest ih => exact ih _ (nodup_insert h acc e hnodup)

theorem find_foldl_insert (h : HashOrder) (values acc : List (String × JsonData))
    (key : String) (hnodup : (acc.map Prod.fst).Nodup) :
    UMap.find (values.foldl (UMap.insert h) acc) key
      = (UMap.find acc key).orElse (fun _ => UMap.find values key) := by
  induction values generalizing acc with
  | nil =>
    simp only [List.foldl_nil]
    cases UMap.find acc key <;> rfl
  | cons e rest ih =>
    rw [List.foldl_cons, ih _ (nodup_insert h acc e hnodup), find_insert h acc e key hnodup]
    obtain ⟨k, v⟩ := e
    by_cases hc : UMap.contains acc k = true
    · simp only [hc, if_true]
      by_cases hk : k = key
      · subst hk
        cases hfind : UMap.find acc k with
        | none => exact absurd ((contains_iff acc k).1 hc) ((find_eq_none_iff acc k).1 hfind)
        | some w => rfl
      · simp [UMap.find, hk]
    · simp only [hc, if_false]
      by_cases hk : k = key
      · subst hk
        have hnone : UMap.find acc k = none :=
          (find_eq_none_iff acc k).2 (fun hmem => hc ((contains_iff acc k).2 hmem))
        simp [UMap.find, hnone]
      · simp [UMap.find, hk]

/-- The range constructor binds every key to the value of its first occurrence. -/
theorem find_ofRange (h : HashOrder) (values : List (String × JsonData)) (key : String) :
    UMap.find (UMap.ofRange h values) key = UMap.find values key := by
  unfold UMap.ofRange
  rw [find_foldl_insert h values [] key (by simp)]
  rfl

theorem find_append_of_first (pre post : List (String × JsonData)) (key : String) (value : JsonData)
    (hfirst : ∀ e ∈ pre, e.1 ≠ key) :
    UMap.find (pre ++ (key, value) :: post) key = some value := by
  induction pre with
  | nil => simp [UMap.find]
  | cons e rest ih =>
    obtain ⟨k, w⟩ := e
    have hk : k ≠ key := hfirst (k, w) (List.mem_cons_self _ _)
    simp only [List.cons_append, UMap.find, hk, if_false]
    exact ih (fun e he => hfirst e (List.mem_cons_of_mem _ he))

theorem length_insert_or_assign (h : HashOrder) (m : List (String × JsonData)) (key : String)
    (value : JsonData) :
    (UMap.insert_or_assign h m key value).length
      = if UMap.contains m key then m.length else m.length + 1 := by
  unfold UMap.insert_or_assign
  split
  · simp
  · simpa using (h.perm ((key, value) :: m)).length_eq

theorem find_insert_or_assign_self (h : HashOrder) (m : List (String × JsonData)) (key : String)
    (value : JsonData) : UMap.find (UMap.insert_or_assign h m key value) key = some value := by
  unfold UMap.insert_or_assign
  split
  · rename_i hc
    rw [contains_iff] at hc
    apply find_of_unique
    · simp only [List.map_map, List.mem_map, Function.comp] at hc ⊢
      obtain ⟨e, he, hk⟩ := hc
      refine ⟨e, he, ?_⟩
      simp [hk]
    · intro e he hk
      simp only [List.mem_map] at he
      obtain ⟨e', _, rfl⟩ := he
      by_cases hek : e'.1 = key
      · simp [hek]
      · simp only [hek, if_false] at hk
  · rename_i hc
    rw [contains_iff] at hc
    apply find_of_unique
    · exact (((h.perm ((key, value) :: m)).map Prod.fst).mem_iff).2 (by simp)
    · intro e he hk
      have he' : e ∈ (key, value) :: m := (h.perm ((key, value) :: m)).mem_iff.1 he
      rcases List.mem_cons.1 he' with heq | hmem
      · rw [heq]
      · exact absurd (hk ▸ List.mem_map_of_mem Prod.fst hmem) hc

theorem find_cons (k key : String) (v : JsonData) (rest : List (String × JsonData)) :
    UMap.find ((k, v) :: rest) key = if k = key then some v else UMap.find rest key := rfl

theorem find_assign_other (m : List (String × JsonData)) (key other : String) (value : JsonData)
    (hne : other ≠ key) :
    UMap.find (m.map (fun e => if e.1 = key then (e.1, value) else e)) other
      = UMap.find m other := by
  induction m with
  | nil => rfl
  | cons e rest ih =>
    obtain ⟨k, w⟩ := e
    rw [List.map_cons]
    by_cases hk : k = key
    · have hko : ¬ k = other := fun hh => hne (hh ▸ hk)
      rw [if_pos hk, find_cons, find_cons, if_neg hko, if_neg hko, ih]
    · rw [if_neg hk, find_cons, find_cons, ih]

/-- C3. For every Object `o`, key and value, after `o.insert(key, value)` the key
is bound to the value; when the key was present `size()` is unchanged and every
other key keeps its previous value; when it was not, `size()` grows by exactly
one. -/
theorem C3_insert_or_assign (h : HashOrder) (o : JsonObject) (key : String) (value : JsonData) :
    (o.insert h key value).find key = some value ∧
    (o.contains key = true →
      (o.insert h key value).size = o.size ∧
      ∀ other : String, other ≠ key → (o.insert h key value).find other = o.find other) ∧
    (o.contains key = false → (o.insert h key value).size = o.size + 1) := by
  refine ⟨find_insert_or_assign_self h o.m_data key value, ?_, ?_⟩
  · intro hc
    have hc' : UMap.contains o.m_data key = true := hc
    refine ⟨?_, ?_⟩
    · simp only [JsonObject.size, JsonObject.insert, length_insert_or_assign, hc', if_true]
    · intro other hne
      simp only [JsonObject.find, JsonObject.insert, UMap.insert_or_assign, hc', if_true]
      exact find_assign_other o.m_data key other value hne
  · intro hc
    have hc' : UMap.contains o.m_data key = false := hc
    simp [JsonObject.size, JsonObject.insert, length_insert_or_assign, hc']

/-- Witness for C3: `a` is rebound in an Object holding `a` and `b`, and the new key
`c` is added to it. -/
theorem C3_insert_or_assign_witness :
    (Example.ab.insert HashOrder.back "a" Example.two).find "a" = some Example.two ∧
    (Example.ab.insert HashOrder.back "a" Example.two).size = 2 ∧
    (Example.ab.insert HashOrder.back "a" Example.two).find "b" = some (JsonData.string "hi") ∧
    (Example.ab.insert HashOrder.back "c" Example.two).find "c" = some Example.two ∧
    (Example.ab.insert HashOrder.back "c" Example.two).size = 3 :=
  ⟨(C3_insert_or_assign HashOrder.back Example.ab "a" Example.two).1,
   ((C3_insert_or_assign HashOrder.back Example.ab "a" Example.two).2.1 (by decide)).1,
   ((C3_insert_or_assign HashOrder.back Example.ab "a" Example.two).2.1 (by decide)).2 "b"
      (by decide),
   (C3_insert_or_assign HashOrder.back Example.ab "c" Example.two).1,
   (C3_insert_or_assign HashOrder.back Example.ab "c" Example.two).2.2 (by decide)⟩

/-! ## Construction from handles -/

theorem derefValues_map_some (nodes : List JsonData) :
    derefValues (nodes.map (fun node => JsonValue.mk (some node))) = some nodes := by
  induction nodes with
  | nil => rfl
  | cons a t ih => simp [derefValues, ih]

theorem derefPairs_map_some (pairs : List (String × JsonData)) :
    derefPairs (pairs.map (fun e => (e.1, JsonValue.mk (some e.2)))) = some pairs := by
  induction pairs with
  | nil => rfl
  | cons a t ih => simp [derefPairs, ih]

theorem exists_nodes_of_valid (hs : List JsonValue) (hvalid : ∀ v ∈ hs, v.valid = true) :
    ∃ nodes : List JsonData, hs = nodes.map (fun node => JsonValue.mk (some node)) := by
  induction hs with
  | nil => exact ⟨[], rfl⟩
  | cons v rest ih =>
    obtain ⟨nodes, hnodes⟩ := ih (fun w hw => hvalid w (List.mem_cons_of_mem _ hw))
    have hv := hvalid v (List.mem_cons_self _ _)
    obtain ⟨sp⟩ := v
    cases sp with
    | none => simp [JsonValue.valid] at hv
    | some node => exact ⟨node :: nodes, by simp [hnodes]⟩

theorem exists_pairs_of_valid (ps : List (String × JsonValue))
    (hvalid : ∀ p ∈ ps, p.2.valid = true) :
    ∃ pairs : List (String × JsonData),
      ps = pairs.map (fun e => (e.1, JsonValue.mk (some e.2))) := by
  induction ps with
  | nil => exact ⟨[], rfl⟩
  | cons p rest ih =>
    obtain ⟨pairs, hpairs⟩ := ih (fun w hw => hvalid w (List.mem_cons_of_mem _ hw))
    have hv := hvalid p (List.mem_cons_self _ _)
    obtain ⟨k, ⟨sp⟩⟩ := p
    cases sp with
    | none => simp [JsonValue.valid] at hv
    | some node => exact ⟨(k, node) :: pairs, by simp [hpairs]⟩

theorem perm_singleton_arrange (h : HashOrder) (e : String × JsonData) : h.arrange [e] = [e] :=
  List.perm_singleton.1 (h.perm [e])

theorem ofRange_duplicate (h : HashOrder) (key : String) (v w : JsonData) :
    UMap.ofRange h [(key, v), (key, w)] = [(key, v)] := by
  simp [UMap.ofRange, UMap.insert, UMap.contains, perm_singleton_arrange]

/-- C2 (as the code has it). The pair-list constructors insert the pairs in list
order and an insertion never overwrites, so a key is bound to the value of its
FIRST occurrence in the list; for the list with `a` paired with 1, then `a`
paired with 2, the Object has size 1 and binds `a` to 1, through
`JsonObject(ObjectList)`, `JsonValue(ObjectList)` and `JsonDocument(ObjectList)`. -/
theorem C2_first_occurrence_wins (h : HashOrder) (pre post : List (String × JsonData))
    (key : String) (value : JsonData) (hfirst : ∀ e ∈ pre, e.1 ≠ key) :
    (JsonObject.ofList h (pre ++ (key, value) :: post)).find key = some value ∧
    JsonValue.ofObjectList h
        ((pre ++ (key, value) :: post).map (fun e => (e.1, JsonValue.mk (some e.2))))
      = some ⟨some (JsonObject.ofList h (pre ++ (key, value) :: post)).toData⟩ ∧
    JsonDocument.ofObjectList h
        ((pre ++ (key, value) :: post).map (fun e => (e.1, JsonValue.mk (some e.2))))
      = some ⟨some (JsonObject.ofList h (pre ++ (key, value) :: post)).toData⟩ ∧
    (JsonObject.ofList h [("a", Example.one), ("a", Example.two)]).size = 1 ∧
    (JsonObject.ofList h [("a", Example.one), ("a", Example.two)]).find "a" = some Example.one ∧
    JsonValue.ofObjectList h [("a", JsonValue.ofInt 1), ("a", JsonValue.ofInt 2)]
      = some ⟨some (JsonData.object [("a", Example.one)])⟩ ∧
    JsonDocument.ofObjectList h [("a", JsonValue.ofInt 1), ("a", JsonValue.ofInt 2)]
      = some ⟨some (JsonData.object [("a", Example.one)])⟩ := by
  have hdup := ofRange_duplicate h "a" Example.one Example.two
  refine ⟨?_, ?_, ?_, ?_, ?_, ?_, ?_⟩
  · simp only [JsonObject.find, JsonObject.ofList]
    rw [find_ofRange]
    exact find_append_of_first pre post key value hfirst
  · simp only [JsonValue.ofObjectList, derefPairs_map_some, Option.map_some']
  · simp only [JsonDocument.ofObjectList, derefPairs_map_some, Option.map_some']
  · simp only [JsonObject.size, JsonObject.ofList, hdup, List.length_singleton]
  · simp only [JsonObject.find, JsonObject.ofList, hdup]
    rfl
  · have : derefPairs [("a", JsonValue.ofInt 1), ("a", JsonValue.ofInt 2)]
        = some [("a", Example.one), ("a", Example.two)] := rfl
    simp only [JsonValue.ofObjectList, this, Option.map_some', JsonObject.ofList, hdup,
      JsonObject.toData]
  · have : derefPairs [("a", JsonValue.ofInt 1), ("a", JsonValue.ofInt 2)]
        = some [("a", Example.one), ("a", Example.two)] := rfl
    simp only [JsonDocument.ofObjectList, this, Option.map_some', JsonObject.ofList, hdup,
      JsonObject.toData]

/-- Witness for C2: in the list `b`, `a`, `a` the key `a` first occurs after `b`. -/
theorem C2_first_occurrence_wins_witness :
    (∀ e ∈ [("b", JsonData.null)], e.1 ≠ "a") ∧
    (JsonObject.ofList HashOrder.back
      ([("b", JsonData.null)] ++ ("a", Example.one) :: [("a", Example.two)])).find "a"
      = some Example.one :=
  ⟨by decide,
   (C2_first_occurrence_wins HashOrder.back [("b", JsonData.null)] [("a", Example.two)] "a"
      Example.one (by decide)).1⟩

/-- C2 as stated fails: built from `a` paired with 1, then `a` paired with 2, the
Object does not bind `a` to 2. -/
theorem C2_last_occurrence_loses :
    ¬ ((JsonObject.ofList HashOrder.front [("a", Example.one), ("a", Example.two)]).size = 1 ∧
       (JsonObject.ofList HashOrder.front [("a", Example.one), ("a", Example.two)]).find "a"
          = some Example.two) := by
  intro hclaim
  have hfind : (JsonObject.ofList HashOrder.front
      [("a", Example.one), ("a", Example.two)]).find "a" = some Example.one := rfl
  rw [hfind] at hclaim
  have h12 := hclaim.2
  simp [Example.one, Example.two, JsonNumber.toData, JsonNumber.ofInt] at h12

/-! ## Documents -/

/-- C6. For every sequence of valid handles the document built from it has an
Array root whose children are the handles' nodes in the same order, and
`os<<document` appends `[`, the texts `h_i.str(1)` separated by `", "`, `]` and a
line break; the handle sequence 1, `z` is written as `[1, "z"]` plus a line
break. -/
theorem C6_document_of_handles (hs : List JsonValue) (hvalid : ∀ v ∈ hs, v.valid = true) :
    (∃ nodes : List JsonData,
      hs.map JsonValue.sp_data = nodes.map some ∧
      hs.map (fun v => v.str 1) = nodes.map (fun node => some (node.str 1)) ∧
      JsonDocument.ofValueList hs = some ⟨some (JsonData.array nodes)⟩ ∧
      ∀ os : String, (JsonDocument.ofValueList hs).bind (JsonDocument.write os)
        = some (os ++ "[" ++ String.intercalate ", " (nodes.map (fun node => node.str 1))
            ++ "]" ++ "\n")) ∧
    (JsonDocument.ofValueList [JsonValue.ofInt 1, JsonValue.ofString "z"]).bind
        (JsonDocument.write "") = some "[1, \"z\"]\n" := by
  refine ⟨?_, rfl⟩
  obtain ⟨nodes, rfl⟩ := exists_nodes_of_valid hs hvalid
  refine ⟨nodes, ?_, ?_, ?_, ?_⟩
  · simp
  · simp [JsonValue.str]
  · simp only [JsonDocument.ofValueList, derefValues_map_some, Option.map_some',
      JsonArray.toData, JsonArray.ofValues]
  · intro os
    simp only [JsonDocument.ofValueList, derefValues_map_some, Option.map_some',
      JsonArray.toData, JsonArray.ofValues, Option.some_bind, JsonDocument.write]
    rw [array_str_eq]
    congr 1
    apply String.ext
    simp [List.append_assoc]

/-- Witness for C6 at the handles built from the `int` 1 and the text `z`. -/
theorem C6_document_of_handles_witness :
    (∀ v ∈ [JsonValue.ofInt 1, JsonValue.ofString "z"], v.valid = true) ∧
    ∃ nodes : List JsonData,
      [JsonValue.ofInt 1, JsonValue.ofString "z"].map JsonValue.sp_data = nodes.map some ∧
      JsonDocument.ofValueList [JsonValue.ofInt 1, JsonValue.ofString "z"]
        = some ⟨some (JsonData.array nodes)⟩ := by
  have hvalid : ∀ v ∈ [JsonValue.ofInt 1, JsonValue.ofString "z"], v.valid = true := by
    intro v hv
    simp only [List.mem_cons, List.mem_singleton, List.not_mem_nil, or_false] at hv
    rcases hv with rfl | rfl <;> rfl
  obtain ⟨nodes, h1, _, h3, _⟩ :=
    (C6_document_of_handles [JsonValue.ofInt 1, JsonValue.ofString "z"] hvalid).1
  exact ⟨hvalid, nodes, h1, h3⟩

theorem perm_foldl_insert (h : HashOrder) (values acc : List (String × JsonData))
    (hnodup : ((acc ++ values).map Prod.fst).Nodup) :
    List.Perm (values.foldl (UMap.insert h) acc) (acc ++ values) := by
  induction values generalizing acc with
  | nil => simp
  | cons e rest ih =>
    have hfresh : UMap.contains acc e.1 = false := by
      cases hc : UMap.contains acc e.1 with
      | false => rfl
      | true =>
        rw [contains_iff] at hc
        simp only [List.map_append, List.map_cons] at hnodup
        have := (List.nodup_append.1 hnodup).2.2
        exact (this hc (List.mem_cons_self _ _)).elim
    have hins : UMap.insert h acc e = h.arrange (e :: acc) := by
      simp [UMap.insert, hfresh]
    have hperm : List.Perm (h.arrange (e :: acc) ++ rest) (acc ++ e :: rest) :=
      ((h.perm (e :: acc)).append_right rest).trans List.perm_middle.symm
    rw [List.foldl_cons, hins]
    refine (ih (h.arrange (e :: acc)) ?_).trans hperm
    exact ((hperm.map Prod.fst).nodup_iff).2 hnodup

/-- With pairwise distinct keys the range constructor keeps every pair. -/
theorem perm_ofRange (h : HashOrder) (values : List (String × JsonData))
    (hnodup : (values.map Prod.fst).Nodup) : List.Perm (UMap.ofRange h values) values := by
  simpa [UMap.ofRange] using perm_foldl_insert h values [] (by simpa using hnodup)

theorem perm_pair {α : Type} (l : List α) (a b : α) (hperm : List.Perm l [a, b]) :
    l = [a, b] ∨ l = [b, a] := by
  have hlen := hperm.length_eq
  match l, hlen with
  | [c, d], _ =>
    have hc : c ∈ [a, b] := hperm.mem_iff.1 (by simp)
    have hd : d ∈ [a, b] := hperm.mem_iff.1 (by simp)
    have ha : a ∈ [c, d] := hperm.mem_iff.2 (by simp)
    have hb : b ∈ [c, d] := hperm.mem_iff.2 (by simp)
    simp only [List.mem_cons, List.mem_singleton, List.not_mem_nil, or_false] at hc hd ha hb
    rcases hc with rfl | rfl
    · rcases hb with rfl | rfl
      · rcases hd with rfl | rfl <;> simp
      · simp
    · rcases ha with rfl | rfl
      · rcases hd with rfl | rfl <;> simp
      · simp

/-- C7. For every pair list with valid handles and pairwise distinct keys the
document built from it has an Object root with one entry per pair, the entries
being a permutation of the pairs, and `os<<document` appends the opening brace
and a newline, one line per entry (one tab, the quoted key, a colon, the value's
`str(1)`, a comma after all but the last), the closing brace and a line break.
For `x` paired with 1 and `y` paired with `hi` the output is the two-entry block
with the lines of `x` and `y` in either order. -/
theorem C7_document_of_pairs (h : HashOrder) (ps : List (String × JsonValue))
    (hvalid : ∀ p ∈ ps, p.2.valid = true) (hdistinct : (ps.map Prod.fst).Nodup) :
    (∃ pairs entries : List (String × JsonData),
      ps.map (fun p => (p.1, p.2.sp_data)) = pairs.map (fun e => (e.1, some e.2)) ∧
      JsonDocument.ofObjectList h ps = some ⟨some (JsonData.object entries)⟩ ∧
      List.Perm entries pairs ∧ entries.length = ps.length ∧
      ∀ os : String, (JsonDocument.ofObjectList h ps).bind (JsonDocument.write os)
        = some (os ++ "\x7b\n" ++ String.join (entries.enum.map
            (fun p => Spec.entryLine 0 entries.length (p.1 + 1) p.2.1 p.2.2)) ++ "\x7d" ++ "\n")) ∧
    ((JsonDocument.ofObjectList h [("x", JsonValue.ofInt 1), ("y", JsonValue.ofString "hi")]).bind
        (JsonDocument.write "") = some "\x7b\n\t\"x\":1,\n\t\"y\":\"hi\"\n\x7d\n" ∨
     (JsonDocument.ofObjectList h [("x", JsonValue.ofInt 1), ("y", JsonValue.ofString "hi")]).bind
        (JsonDocument.write "") = some "\x7b\n\t\"y\":\"hi\",\n\t\"x\":1\n\x7d\n") := by
  constructor
  · obtain ⟨pairs, rfl⟩ := exists_pairs_of_valid ps hvalid
    have hkeys : (pairs.map Prod.fst).Nodup := by
      simpa [List.map_map, Function.comp] using hdistinct
    refine ⟨pairs, UMap.ofRange h pairs, ?_, ?_, perm_ofRange h pairs hkeys, ?_, ?_⟩
    · simp [List.map_map, Function.comp]
    · simp only [JsonDocument.ofObjectList, derefPairs_map_some, Option.map_some',
        JsonObject.toData, JsonObject.ofList]
    · simpa using (perm_ofRange h pairs hkeys).length_eq
    · intro os
      simp only [JsonDocument.ofObjectList, derefPairs_map_some, Option.map_some',
        JsonObject.toData, JsonObject.ofList, Option.some_bind, JsonDocument.write]
      have := object_str_eq 0 (UMap.ofRange h pairs)
      simp only [Nat.cast_zero] at this
      rw [this]
      congr 1
      apply String.ext
      simp [Spec.objectBlock, Spec.entryLines, List.append_assoc]
  · have hderef : derefPairs [("x", JsonValue.ofInt 1), ("y", JsonValue.ofString "hi")]
        = some [("x", Example.one), ("y", JsonData.string "hi")] := rfl
    have hperm := perm_ofRange h [("x", Example.one), ("y", JsonData.string "hi")] (by decide)
    simp only [JsonDocument.ofObjectList, hderef, Option.map_some', JsonObject.toData,
      JsonObject.ofList, Option.some_bind, JsonDocument.write]
    rcases perm_pair _ _ _ hperm with heq | heq
    · left; rw [heq]; rfl
    · right; rw [heq]; rfl

/-- Witness for C7 at `x` paired with 1 and `y` paired with `hi`. -/
theorem C7_document_of_pairs_witness :
    (∀ p ∈ [("x", JsonValue.ofInt 1), ("y", JsonValue.ofString "hi")], p.2.valid = true) ∧
    ([("x", JsonValue.ofInt 1), ("y", JsonValue.ofString "hi")].map Prod.fst).Nodup ∧
    ((JsonDocument.ofObjectList HashOrder.back
        [("x", JsonValue.ofInt 1), ("y", JsonValue.ofString "hi")]).bind
        (JsonDocument.write "") = some "\x7b\n\t\"x\":1,\n\t\"y\":\"hi\"\n\x7d\n" ∨
     (JsonDocument.ofObjectList HashOrder.back
        [("x", JsonValue.ofInt 1), ("y", JsonValue.ofString "hi")]).bind
        (JsonDocument.write "") = some "\x7b\n\t\"y\":\"hi\",\n\t\"x\":1\n\x7d\n") := by
  have hvalid : ∀ p ∈ [("x", JsonValue.ofInt 1), ("y", JsonValue.ofString "hi")],
      p.2.valid = true := by
    intro p hp
    simp only [List.mem_cons, List.mem_singleton, List.not_mem_nil, or_false] at hp
    rcases hp with rfl | rfl <;> rfl
  have hdistinct :
      ([("x", JsonValue.ofInt 1), ("y", JsonValue.ofString "hi")].map Prod.fst).Nodup := by
    decide
  exact ⟨hvalid, hdistinct,
    (C7_document_of_pairs HashOrder.back _ hvalid hdistinct).2⟩

/-! ## Kinds and handles -/

/-- C11 (code defect). The discriminant lists `Boolean`, but no class implements
it: no node has the type `Boolean`, so none renders as `true` or `false`. A `bool`
handed to `JsonValue` is taken by `JsonValue(int)`: the handle is a Number and
renders as `1` or `0` at every indent level. -/
theorem C11_no_boolean_node :
    (∀ x : JsonData, x.type ≠ JsonType.Boolean) ∧
    (∀ b : Bool, (JsonValue.ofBool b).type = some JsonType.Number) ∧
    (∀ L : Int, (JsonValue.ofBool true).str L = some "1") ∧
    (∀ L : Int, (JsonValue.ofBool false).str L = some "0") ∧
    (∀ L : Int, (JsonValue.ofBool true).str L ≠ some "true") := by
  refine ⟨?_, ?_, fun _ => rfl, fun _ => rfl, ?_⟩
  · intro x
    cases x <;> simp [JsonData.type]
  · intro b
    cases b <;> rfl
  · intro L h
    have h1 : (JsonValue.ofBool true).str L = some "1" := rfl
    rw [h1] at h
    exact absurd h (by decide)

theorem derefValues_of_valid (hs : List JsonValue) (hvalid : ∀ v ∈ hs, v.valid = true) :
    ∃ nodes : List JsonData,
      hs = nodes.map (fun node => JsonValue.mk (some node)) ∧ derefValues hs = some nodes := by
  obtain ⟨nodes, rfl⟩ := exists_nodes_of_valid hs hvalid
  exact ⟨nodes, rfl, derefValues_map_some nodes⟩

theorem derefPairs_of_valid (ps : List (String × JsonValue))
    (hvalid : ∀ p ∈ ps, p.2.valid = true) :
    ∃ pairs : List (String × JsonData),
      ps = pairs.map (fun e => (e.1, JsonValue.mk (some e.2))) ∧ derefPairs ps = some pairs := by
  obtain ⟨pairs, rfl⟩ := exists_pairs_of_valid ps hvalid
  exact ⟨pairs, rfl, derefPairs_map_some pairs⟩

/-- C12. Every constructor of `JsonValue` yields a valid handle of the
corresponding kind: `JsonValue()` and `JsonValue(void*)` give Null, `int` and
`float` give Number, a text gives String, a sequence of valid handles gives
Array, and a sequence of pairs of a text and a valid handle gives Object. -/
theorem C12_constructors_allocate (h : HashOrder) (n : Int) (f : Float32) (s : String)
    (hs : List JsonValue) (ps : List (String × JsonValue))
    (hvalues : ∀ v ∈ hs, v.valid = true) (hpairs : ∀ p ∈ ps, p.2.valid = true) :
    (JsonValue.default.valid = true ∧ JsonValue.default.type = some JsonType.Null) ∧
    (JsonValue.ofPointer.valid = true ∧ JsonValue.ofPointer.type = some JsonType.Null) ∧
    ((JsonValue.ofInt n).valid = true ∧ (JsonValue.ofInt n).type = some JsonType.Number) ∧
    ((JsonValue.ofFloat f).valid = true ∧ (JsonValue.ofFloat f).type = some JsonType.Number) ∧
    ((JsonValue.ofString s).valid = true ∧ (JsonValue.ofString s).type = some JsonType.String) ∧
    (∃ v : JsonValue, JsonValue.ofValueList hs = some v ∧ v.valid = true ∧
      v.type = some JsonType.Array) ∧
    (∃ v : JsonValue, JsonValue.ofObjectList h ps = some v ∧ v.valid = true ∧
      v.type = some JsonType.Object) := by
  refine ⟨⟨rfl, rfl⟩, ⟨rfl, rfl⟩, ⟨rfl, rfl⟩, ⟨rfl, rfl⟩, ⟨rfl, rfl⟩, ?_, ?_⟩
  · obtain ⟨nodes, _, hnodes⟩ := derefValues_of_valid hs hvalues
    exact ⟨⟨some (JsonArray.ofValues nodes).toData⟩,
      by simp only [JsonValue.ofValueList, hnodes, Option.map_some'], rfl, rfl⟩
  · obtain ⟨pairs, _, hp⟩ := derefPairs_of_valid ps hpairs
    exact ⟨⟨some (JsonObject.ofList h pairs).toData⟩,
      by simp only [JsonValue.ofObjectList, hp, Option.map_some'], rfl, rfl⟩

/-- Witness for C12 at the `int` 7, the float 2.5, the text `z`, the handles 1 and
`z`, and the pair of `x` with the handle 1. -/
theorem C12_constructors_allocate_witness :
    (∀ v ∈ [JsonValue.ofInt 1, JsonValue.ofString "z"], v.valid = true) ∧
    (∀ p ∈ [("x", JsonValue.ofInt 1)], p.2.valid = true) ∧
    (∃ v : JsonValue, JsonValue.ofValueList [JsonValue.ofInt 1, JsonValue.ofString "z"] = some v ∧
      v.valid = true ∧ v.type = some JsonType.Array) ∧
    (∃ v : JsonValue, JsonValue.ofObjectList HashOrder.front [("x", JsonValue.ofInt 1)] = some v ∧
      v.valid = true ∧ v.type = some JsonType.Object) := by
  have hvalues : ∀ v ∈ [JsonValue.ofInt 1, JsonValue.ofString "z"], v.valid = true := by
    intro v hv
    simp only [List.mem_cons, List.mem_singleton, List.not_mem_nil, or_false] at hv
    rcases hv with rfl | rfl <;> rfl
  have hpairs : ∀ p ∈ [("x", JsonValue.ofInt 1)], p.2.valid = true := by
    intro p hp
    simp only [List.mem_singleton] at hp
    rw [hp]; rfl
  have hall := C12_constructors_allocate HashOrder.front 7 (Float32.finite false 5 (-1)) "z"
    [JsonValue.ofInt 1, JsonValue.ofString "z"] [("x", JsonValue.ofInt 1)] hvalues hpairs
  exact ⟨hvalues, hpairs, hall.2.2.2.2.2.1, hall.2.2.2.2.2.2⟩

/-- C13 (code defect). The documents built from a sequence of valid handles, from a
pair list of valid handles, from owned nodes and from owned pairs have a root,
`valid()` being true; the document of the default constructor has none:
`valid()` is false and its root is no Null node. -/
theorem C13_default_document_invalid :
    JsonDocument.default.valid = false ∧
    JsonDocument.default.p_data ≠ some JsonData.null ∧
    (∀ hs : List JsonValue, (∀ v ∈ hs, v.valid = true) →
      ∃ d : JsonDocument, JsonDocument.ofValueList hs = some d ∧ d.valid = true) ∧
    (∀ (h : HashOrder) (ps : List (String × JsonValue)), (∀ p ∈ ps, p.2.valid = true) →
      ∃ d : JsonDocument, JsonDocument.ofObjectList h ps = some d ∧ d.valid = true) ∧
    (∀ values : List JsonData, (JsonDocument.ofSValueList values).valid = true) ∧
    (∀ (h : HashOrder) (values : List (String × JsonData)),
      (JsonDocument.ofSObjectList h values).valid = true) := by
  refine ⟨rfl, by simp [JsonDocument.default], ?_, ?_, fun _ => rfl, fun _ _ => rfl⟩
  · intro hs hvalid
    obtain ⟨nodes, _, hnodes⟩ := derefValues_of_valid hs hvalid
    exact ⟨⟨some (JsonArray.ofValues nodes).toData⟩,
      by simp only [JsonDocument.ofValueList, hnodes, Option.map_some'], rfl⟩
  · intro h ps hvalid
    obtain ⟨pairs, _, hp⟩ := derefPairs_of_valid ps hvalid
    exact ⟨⟨some (JsonObject.ofList h pairs).toData⟩,
      by simp only [JsonDocument.ofObjectList, hp, Option.map_some'], rfl⟩

/-- C14. For every sequence of valid handles and every indent level `L`, the handle
built from the sequence is an Array whose size is the length of the sequence
and whose children are the handles' nodes in the same order, and its `str(L)` is
`[`, the texts `h_i.str(L+1)` separated by `", "`, and `]`. -/
theorem C14_handle_of_handles (hs : List JsonValue) (hvalid : ∀ v ∈ hs, v.valid = true) :
    ∃ nodes : List JsonData,
      hs.map JsonValue.sp_data = nodes.map some ∧
      JsonValue.ofValueList hs = some ⟨some (JsonArray.ofValues nodes).toData⟩ ∧
      (JsonArray.ofValues nodes).size = hs.length ∧
      (JsonArray.ofValues nodes).data = nodes ∧
      ∀ L : Int,
        hs.map (fun v => v.str (L + 1)) = nodes.map (fun node => some (node.str (L + 1))) ∧
        (JsonValue.ofValueList hs).bind (fun v => v.str L)
          = some ("[" ++ String.intercalate ", " (nodes.map (fun node => node.str (L + 1)))
              ++ "]") := by
  obtain ⟨nodes, rfl, hnodes⟩ := derefValues_of_valid hs hvalid
  refine ⟨nodes, by simp, ?_, by simp [JsonArray.size, JsonArray.ofValues], rfl, ?_⟩
  · simp only [JsonValue.ofValueList, hnodes, Option.map_some']
  · intro L
    refine ⟨by simp [JsonValue.str], ?_⟩
    simp only [JsonValue.ofValueList, hnodes, Option.map_some', Option.some_bind, JsonValue.str,
      JsonArray.toData, JsonArray.ofValues]
    rw [array_str_eq]

/-- Witness for C14 at the handles built from the `int` 1 and the text `z`. -/
theorem C14_handle_of_handles_witness :
    (∀ v ∈ [JsonValue.ofInt 1, JsonValue.ofString "z"], v.valid = true) ∧
    ∃ nodes : List JsonData,
      [JsonValue.ofInt 1, JsonValue.ofString "z"].map JsonValue.sp_data = nodes.map some ∧
      (JsonArray.ofValues nodes).size = 2 := by
  have hvalid : ∀ v ∈ [JsonValue.ofInt 1, JsonValue.ofString "z"], v.valid = true := by
    intro v hv
    simp only [List.mem_cons, List.mem_singleton, List.not_mem_nil, or_false] at hv
    rcases hv with rfl | rfl <;> rfl
  obtain ⟨nodes, h1, _, h3, _⟩ :=
    C14_handle_of_handles [JsonValue.ofInt 1, JsonValue.ofString "z"] hvalid
  exact ⟨hvalid, nodes, h1, h3⟩

/-! ## Array and object operations -/

theorem intercalate_append_singleton (sep a x : String) (t : List String) :
    String.intercalate sep ((a :: t) ++ [x]) = String.intercalate sep (a :: t) ++ sep ++ x := by
  simp only [List.cons_append, String.intercalate, intercalateGo_eq]
  apply String.ext
  simp [List.append_assoc]

theorem strItems_push_back (m_data : List JsonData) (x : JsonData) (indent : Int)
    (hne : m_data ≠ []) :
    JsonData.strItems (m_data ++ [x]) indent
      = JsonData.strItems m_data indent ++ ", " ++ x.str (indent + 1) := by
  cases m_data with
  | nil => exact absurd rfl hne
  | cons a t =>
    rw [strItems_eq_intercalate, strItems_eq_intercalate, List.map_append, List.map_cons,
      List.map_cons, List.map_nil, intercalate_append_singleton]

/-- C19. For every Array `a` and node `x`: after `a.push_back(x)` the size is the
old size plus one, the previous children are unchanged and in the same order,
and `x` is the last child, so `str(L)` of a non-empty `a` gains `", "` and
`x.str(L+1)` before the closing `]`; `push_back(x)` followed by `pop_back()`
restores the previous children and the previous rendering. -/
theorem C19_push_back_pop_back (a : JsonArray) (x : JsonData) (L : Int) :
    (a.push_back x).size = a.size + 1 ∧
    (a.push_back x).data = a.data ++ [x] ∧
    (a.push_back x).data.take a.size = a.data ∧
    (a.push_back x).data.getLast? = some x ∧
    (a.size ≠ 0 →
      a.str L = "[" ++ JsonData.strItems a.m_data L ++ "]" ∧
      (a.push_back x).str L
        = "[" ++ JsonData.strItems a.m_data L ++ ", " ++ x.str (L + 1) ++ "]") ∧
    (a.push_back x).pop_back = some a ∧
    ((a.push_back x).pop_back).map (fun b => (b.data, b.str L)) = some (a.data, a.str L) := by
  have hpop : (a.push_back x).pop_back = some a := by
    obtain ⟨m_data⟩ := a
    simp [JsonArray.push_back, JsonArray.pop_back]
  refine ⟨?_, rfl, ?_, ?_, ?_, hpop, ?_⟩
  · simp [JsonArray.size, JsonArray.push_back]
  · simp [JsonArray.size, JsonArray.push_back, JsonArray.data]
  · simp [JsonArray.push_back, JsonArray.data]
  · intro hsize
    have hne : a.m_data ≠ [] := by
      intro hnil
      exact hsize (by simp [JsonArray.size, hnil])
    refine ⟨rfl, ?_⟩
    simp only [JsonArray.str, JsonArray.toData, JsonArray.push_back, JsonData.str]
    rw [strItems_push_back a.m_data x L hne]
    apply String.ext
    simp [List.append_assoc]
  · rw [hpop]; rfl

/-- Witness for C19: the node 2 is pushed on the Array holding the node 1. -/
theorem C19_push_back_pop_back_witness :
    (JsonArray.ofValues [Example.one]).size ≠ 0 ∧
    ((JsonArray.ofValues [Example.one]).push_back Example.two).str 0
      = "[" ++ JsonData.strItems [Example.one] 0 ++ ", " ++ Example.two.str (0 + 1) ++ "]" :=
  ⟨by decide,
   ((C19_push_back_pop_back (JsonArray.ofValues [Example.one]) Example.two 0).2.2.2.2.1
      (by decide)).2⟩

theorem contains_ofRange (h : HashOrder) (values : List (String × JsonData)) (key : String) :
    UMap.contains (UMap.ofRange h values) key = true ↔ key ∈ values.map Prod.fst := by
  rw [contains_iff]
  have h1 := find_eq_none_iff (UMap.ofRange h values) key
  have h2 := find_eq_none_iff values key
  rw [find_ofRange] at h1
  constructor
  · intro hmem
    by_contra hnot
    exact (h1.1 (h2.2 hnot)) hmem
  · intro hmem
    by_contra hnot
    exact (h2.1 (h1.2 hnot)) hmem

theorem nodup_ofRange (h : HashOrder) (values : List (String × JsonData)) :
    ((UMap.ofRange h values).map Prod.fst).Nodup :=
  nodup_foldl_insert h values [] (by simp)

theorem length_ofRange (h : HashOrder) (values : List (String × JsonData)) :
    (UMap.ofRange h values).length = (values.map Prod.fst).dedup.length := by
  have hnodup := nodup_ofRange h values
  have hset : ((UMap.ofRange h values).map Prod.fst).toFinset = (values.map Prod.fst).toFinset := by
    ext key
    simp only [List.mem_toFinset]
    rw [← contains_iff, contains_ofRange]
  calc (UMap.ofRange h values).length
      = ((UMap.ofRange h values).map Prod.fst).length := by simp
    _ = ((UMap.ofRange h values).map Prod.fst).toFinset.card :=
        (List.toFinset_card_of_nodup hnodup).symm
    _ = (values.map Prod.fst).toFinset.card := by rw [hset]
    _ = (values.map Prod.fst).dedup.length := List.card_toFinset _

/-- C20. For every pair list the Object constructed from it has as size the number
of distinct keys of the list, its keys are exactly the keys of the list, each
once, and each key is bound to a value paired with it in the list; its rendering
is the block with one entry line per distinct key. -/
theorem C20_object_of_pairs (h : HashOrder) (ps : List (String × JsonData)) :
    (JsonObject.ofList h ps).size = (ps.map Prod.fst).dedup.length ∧
    (∀ key : String, (JsonObject.ofList h ps).contains key = true ↔ key ∈ ps.map Prod.fst) ∧
    ((JsonObject.ofList h ps).data.map Prod.fst).Nodup ∧
    (∀ (key : String) (value : JsonData),
      (JsonObject.ofList h ps).find key = some value → (key, value) ∈ ps) ∧
    (∀ L : Nat,
      (JsonObject.ofList h ps).str (L : Int) = Spec.objectBlock L (JsonObject.ofList h ps).data ∧
      (Spec.entryLines L (JsonObject.ofList h ps).data).length
        = (ps.map Prod.fst).dedup.length) := by
  refine ⟨length_ofRange h ps, fun key => contains_ofRange h ps key, nodup_ofRange h ps, ?_, ?_⟩
  · intro key value hfind
    simp only [JsonObject.find, JsonObject.ofList] at hfind
    rw [find_ofRange] at hfind
    exact mem_of_find ps key value hfind
  · intro L
    refine ⟨object_str_eq L _, ?_⟩
    simp only [Spec.entryLines, List.length_map, List.enum_length, JsonObject.data,
      JsonObject.ofList]
    exact length_ofRange h ps

/-! ## Numbers built from a float -/

theorem value_ofInt_of_dvd (n : Int)
    (hdvd : 2 ^ (Float32.bitLength n.natAbs - 24) ∣ n.natAbs) :
    (Float32.ofInt n).value = some (n : ℚ) := by
  obtain ⟨c, hc⟩ := hdvd
  have hpos : 0 < 2 ^ (Float32.bitLength n.natAbs - 24) := Nat.two_pow_pos _
  have hmod : n.natAbs % 2 ^ (Float32.bitLength n.natAbs - 24) = 0 :=
    Nat.mod_eq_zero_of_dvd ⟨c, hc⟩
  have hdiv : n.natAbs / 2 ^ (Float32.bitLength n.natAbs - 24) = c :=
    Nat.div_eq_of_eq_mul_right hpos hc
  have hne : ¬ (0 = 2 ^ (Float32.bitLength n.natAbs - 24)) := by omega
  have hofInt : Float32.ofInt n
      = Float32.finite (decide (n < 0)) c (Float32.bitLength n.natAbs - 24 : Nat) := by
    simp only [Float32.ofInt, hmod, hdiv, Nat.mul_zero, Nat.not_lt_zero, decide_False,
      hne, Bool.false_and, Bool.or_self, Bool.false_eq_true, if_false]
  rw [hofInt]
  have habs : ((n.natAbs : ℕ) : ℚ) = (c : ℚ) * 2 ^ ((Float32.bitLength n.natAbs - 24 : Nat) : Int) := by
    rw [zpow_natCast]
    have : n.natAbs = c * 2 ^ (Float32.bitLength n.natAbs - 24) := by
      rw [Nat.mul_comm]; exact hc
    exact_mod_cast this
  simp only [Float32.value, Option.some.injEq]
  rw [mul_assoc, ← habs]
  obtain ⟨m, rfl | rfl⟩ := Int.eq_nat_or_neg n
  · simp
  · by_cases hm : m = 0
    · simp [hm]
    · have : (-(m : Int) < 0) := by omega
      simp [this]

theorem floor_magnitude (m : Nat) (e : Int) :
    ⌊(m : ℚ) * 2 ^ e⌋
      = ((if 0 ≤ e then m * 2 ^ e.toNat else m / 2 ^ (-e).toNat : Nat) : Int) := by
  by_cases he : 0 ≤ e
  · obtain ⟨k, rfl⟩ := Int.eq_ofNat_of_zero_le he
    simp only [he, if_true, Int.toNat_ofNat, zpow_natCast]
    have : (m : ℚ) * 2 ^ k = ((m * 2 ^ k : ℕ) : ℚ) := by push_cast; ring
    rw [this, Int.floor_natCast]
  · simp only [he, if_false]
    have hj : e = -(((-e).toNat : ℕ) : Int) := by omega
    have : (m : ℚ) * 2 ^ e = (m : ℚ) / ((2 ^ (-e).toNat : ℕ) : ℚ) := by
      conv_lhs => rw [hj]
      rw [zpow_neg, zpow_natCast]
      push_cast
      ring
    rw [this, Rat.floor_natCast_div_natCast]
    norm_cast

theorem trunc_signed (s : Bool) (x : ℚ) (hx : 0 ≤ x) :
    Spec.trunc ((if s then -1 else 1) * x) = if s then -⌊x⌋ else ⌊x⌋ := by
  cases s with
  | false => simp [Spec.trunc, hx]
  | true =>
    simp only [if_true, neg_mul, one_mul, Spec.trunc]
    by_cases h0 : 0 ≤ -x
    · have hx0 : x = 0 := le_antisymm (by linarith) hx
      simp [hx0]
    · simp only [h0, if_false, Int.ceil_neg]

/-- C18. For every Number built from a finite single-precision float whose value
truncated toward zero is a 32-bit signed integer, the float alternative is
active and `asInteger()` is the value truncated toward zero: 2.5 gives 2, -2.5
gives -2, and the float nearest to 2.9 gives 2. -/
theorem C18_float_asInteger_truncates (f : Float32) (q : ℚ) (hrep : f.Representable)
    (hvalue : f.value = some q)
    (hfit : -2 ^ 31 ≤ Spec.trunc q ∧ Spec.trunc q < 2 ^ 31) :
    ((JsonNumber.ofFloat f).isFloat = true ∧ (JsonNumber.ofFloat f).isInteger = false ∧
      (JsonNumber.ofFloat f).asInteger.bind Float32.value = some ((Spec.trunc q : Int) : ℚ)) ∧
    (JsonNumber.ofFloat (Float32.finite false 5 (-1))).asInteger
      = some (Float32.finite false 2 0) ∧
    (JsonNumber.ofFloat (Float32.finite true 5 (-1))).asInteger
      = some (Float32.finite true 2 0) ∧
    (JsonNumber.ofFloat (Float32.finite false 12163482 (-22))).asInteger
      = some (Float32.finite false 2 0) := by
  refine ⟨⟨rfl, rfl, ?_⟩, by decide, by decide, by decide⟩
  cases f with
  | inf s => simp [Float32.value] at hvalue
  | nan s => simp [Float32.value] at hvalue
  | finite s m e =>
    have hm : m < 2 ^ 24 := hrep.1
    simp only [Float32.value, Option.some.injEq] at hvalue
    have hx : (0 : ℚ) ≤ (m : ℚ) * 2 ^ e := by positivity
    have htrunc : Spec.trunc q = if s then -⌊(m : ℚ) * 2 ^ e⌋ else ⌊(m : ℚ) * 2 ^ e⌋ := by
      rw [← hvalue, mul_assoc]
      exact trunc_signed s _ hx
    rw [floor_magnitude] at htrunc
    have hexact : 2 ^ (Float32.bitLength
          (if 0 ≤ e then m * 2 ^ e.toNat else m / 2 ^ (-e).toNat) - 24)
        ∣ (if 0 ≤ e then m * 2 ^ e.toNat else m / 2 ^ (-e).toNat) := by
      by_cases he : 0 ≤ e
      · simp only [he, if_true]
        have hlt : m * 2 ^ e.toNat < 2 ^ (24 + e.toNat) := by
          rw [Nat.pow_add]
          exact Nat.mul_lt_mul_of_lt_of_le hm (Nat.le_refl _) (Nat.two_pow_pos _)
        have hbits := bitLengthAux_le (m * 2 ^ e.toNat) (m * 2 ^ e.toNat) (24 + e.toNat) hlt
        have hshift : Float32.bitLength (m * 2 ^ e.toNat) - 24 ≤ e.toNat := by
          unfold Float32.bitLength
          omega
        exact Dvd.dvd.mul_left (Nat.pow_dvd_pow 2 hshift) m
      · simp only [he, if_false]
        have hlt : m / 2 ^ (-e).toNat < 2 ^ 24 := lt_of_le_of_lt (Nat.div_le_self _ _) hm
        have hbits := bitLengthAux_le (m / 2 ^ (-e).toNat) (m / 2 ^ (-e).toNat) 24 hlt
        have hshift : Float32.bitLength (m / 2 ^ (-e).toNat) - 24 = 0 := by
          unfold Float32.bitLength
          omega
        rw [hshift]
        simp
    have htoInt : (Float32.finite s m e).toInt?
        = some (if s then -((if 0 ≤ e then m * 2 ^ e.toNat else m / 2 ^ (-e).toNat : Nat) : Int)
            else ((if 0 ≤ e then m * 2 ^ e.toNat else m / 2 ^ (-e).toNat : Nat) : Int)) := by
      rw [htrunc] at hfit
      simp only [Float32.toInt?]
      rw [if_pos hfit]
    generalize (if 0 ≤ e then m * 2 ^ e.toNat else m / 2 ^ (-e).toNat) = mag
      at htrunc hexact htoInt
    rw [htrunc]
    simp only [JsonNumber.asInteger, JsonNumber.ofFloat, htoInt, Option.map_some',
      Option.some_bind]
    apply value_ofInt_of_dvd
    have habs : (if s then -(mag : Int) else (mag : Int)).natAbs = mag := by
      cases s <;> simp
    rw [habs]
    exact hexact

/-- Witness for C18 at the float -2.5, whose truncation is -2. -/
theorem C18_float_asInteger_truncates_witness :
    (Float32.finite true 5 (-1)).Representable ∧
    (Float32.finite true 5 (-1)).value = some (-5 / 2 : ℚ) ∧
    Spec.trunc (-5 / 2 : ℚ) = -2 ∧
    (JsonNumber.ofFloat (Float32.finite true 5 (-1))).asInteger.bind Float32.value
      = some ((Spec.trunc (-5 / 2 : ℚ) : Int) : ℚ) := by
  have hrep : (Float32.finite true 5 (-1)).Representable := by
    simp [Float32.Representable]
  have hvalue : (Float32.finite true 5 (-1)).value = some (-5 / 2 : ℚ) := by
    norm_num [Float32.value]
  have htrunc : Spec.trunc (-5 / 2 : ℚ) = -2 := by
    have hneg : ¬ (0 : ℚ) ≤ -5 / 2 := by norm_num
    simp only [Spec.trunc, hneg, if_false]
    rw [Int.ceil_eq_iff]
    norm_num
  have hfit : -2 ^ 31 ≤ Spec.trunc (-5 / 2 : ℚ) ∧ Spec.trunc (-5 / 2 : ℚ) < 2 ^ 31 := by
    rw [htrunc]; norm_num
  exact ⟨hrep, hvalue, htrunc,
    (C18_float_asInteger_truncates (Float32.finite true 5 (-1)) (-5 / 2) hrep hvalue hfit).1.2.2⟩

/-! ## The characters of a rendered number -/

theorem digitChar_isDigit (d : Nat) (hd : d < 10) : (Nat.digitChar d).isDigit = true := by
  interval_cases d <;> rfl

theorem toDigitsCore_isDigit (fuel n : Nat) (acc : List Char)
    (hacc : ∀ c ∈ acc, c.isDigit = true) :
    ∀ c ∈ Nat.toDigitsCore 10 fuel n acc, c.isDigit = true := by
  induction fuel generalizing n acc with
  | zero => simpa [Nat.toDigitsCore] using hacc
  | succ f ih =>
    have hd : (Nat.digitChar (n % 10)).isDigit = true :=
      digitChar_isDigit (n % 10) (Nat.mod_lt n (by decide))
    have hacc' : ∀ c ∈ Nat.digitChar (n % 10) :: acc, c.isDigit = true := by
      intro c hc
      rcases List.mem_cons.1 hc with rfl | hc
      · exact hd
      · exact hacc c hc
    rw [Nat.toDigitsCore]
    split
    · exact hacc'
    · exact ih (n / 10) _ hacc'

theorem nat_toString_isDigit (n : Nat) : ∀ c ∈ (toString n).data, c.isDigit = true := by
  intro c hc
  have : (toString n).data = Nat.toDigits 10 n := rfl
  rw [this] at hc
  exact toDigitsCore_isDigit (n + 1) n [] (by simp) c hc

/-- The characters a rendered number is made of. -/
theorem number_text_char (data : NumberData) (indent : Int) :
    ∀ c ∈ ((JsonData.number data).str indent).data,
      c.isDigit = true ∨ c ∈ ['-', '.', 'i', 'n', 'f', 'a'] := by
  intro c hc
  cases data with
  | int v =>
    cases v with
    | ofNat m =>
      left
      exact nat_toString_isDigit m c hc
    | negSucc m =>
      have : ((JsonData.number (NumberData.int (Int.negSucc m))).str indent).data
          = '-' :: (toString (m + 1)).data := rfl
      rw [this] at hc
      rcases List.mem_cons.1 hc with rfl | hc
      · right; simp
      · left; exact nat_toString_isDigit (m + 1) c hc
  | float f =>
    cases f with
    | inf s =>
      cases s
      · have : c ∈ ['i', 'n', 'f'] := hc
        right; simp at this ⊢; tauto
      · have : c ∈ ['-', 'i', 'n', 'f'] := hc
        right; simp at this ⊢; tauto
    | nan s =>
      cases s
      · have : c ∈ ['n', 'a', 'n'] := hc
        right; simp at this ⊢; tauto
      · have : c ∈ ['-', 'n', 'a', 'n'] := hc
        right; simp at this ⊢; tauto
    | finite s m e =>
      simp only [JsonData.str, Float32.to_string, String.data_append, List.mem_append] at hc
      rcases hc with (((hc | hc) | hc) | hc) | hc
      · cases s
        · simp at hc
        · right
          have : c ∈ ['-'] := by simpa using hc
          simp at this ⊢; tauto
      · left; exact nat_toString_isDigit _ c hc
      · right
        have : c ∈ ['.'] := hc
        simp at this ⊢; tauto
      · left
        have : c = '0' := by
          simp only [List.mem_replicate] at hc
          exact hc.2
        rw [this]; rfl
      · left; exact nat_toString_isDigit _ c hc

theorem number_text_not_mem (data : NumberData) (indent : Int) (ch : Char)
    (hch : ch ∈ '\n' :: Spec.brackets) :
    ch ∉ ((JsonData.number data).str indent).data := by
  intro hmem
  have hchar := number_text_char data indent ch hmem
  simp only [Spec.brackets, List.mem_cons, List.mem_singleton, List.not_mem_nil, or_false] at hch
  rcases hch with rfl | rfl | rfl | rfl | rfl <;> revert hchar <;> decide

/-! ## Bracket counts -/

theorem not_mem_of_avoids (cs : List Char) (s : String) (ch : Char) (hch : ch ∈ cs)
    (havoid : s.data.all (fun c => decide (c ∉ cs)) = true) : ch ∉ s.data := by
  intro hmem
  have := List.all_eq_true.1 havoid ch hmem
  simp only [decide_eq_true_eq] at this
  exact this hch

theorem count_tabs (ch : Char) (hch : ch ∈ '\n' :: Spec.brackets) (indent : Int) :
    (tabs indent).data.count ch = 0 := by
  rw [List.count_eq_zero]
  intro hmem
  have htab : ch = '\t' := by
    simp only [tabs, List.mem_replicate] at hmem
    exact hmem.2
  subst htab
  revert hch
  decide

theorem count_number (ch : Char) (hch : ch ∈ '\n' :: Spec.brackets) (data : NumberData)
    (indent : Int) : ((JsonData.number data).str indent).data.count ch = 0 :=
  List.count_eq_zero.2 (number_text_not_mem data indent ch hch)

theorem count_of_avoids (cs : List Char) (s : String) (ch : Char) (hch : ch ∈ cs)
    (havoid : s.data.all (fun c => decide (c ∉ cs)) = true) : s.data.count ch = 0 :=
  List.count_eq_zero.2 (not_mem_of_avoids cs s ch hch havoid)

theorem count_comma (ch : Char) (hch : ch ∈ '\n' :: Spec.brackets) (rest : List JsonData) :
    (if rest.isEmpty then "" else ", " : String).data.count ch = 0 := by
  simp only [Spec.brackets, List.mem_cons, List.mem_singleton, List.not_mem_nil, or_false] at hch
  cases rest with
  | nil => rcases hch with rfl | rfl | rfl | rfl | rfl <;> decide
  | cons a t =>
    have hsep : (if (a :: t).isEmpty then "" else ", " : String) = ", " := rfl
    rw [hsep]
    rcases hch with rfl | rfl | rfl | rfl | rfl <;> decide

theorem count_entry_comma (ch : Char) (hch : ch ∈ '\n' :: Spec.brackets)
    (rest : List (String × JsonData)) :
    (if rest.isEmpty then "" else "," : String).data.count ch = 0 := by
  simp only [Spec.brackets, List.mem_cons, List.mem_singleton, List.not_mem_nil, or_false] at hch
  cases rest with
  | nil => rcases hch with rfl | rfl | rfl | rfl | rfl <;> decide
  | cons a t =>
    have hsep : (if (a :: t).isEmpty then "" else "," : String) = "," := rfl
    rw [hsep]
    rcases hch with rfl | rfl | rfl | rfl | rfl <;> decide

mutual
/-- The occurrences of a bracket character in a rendering: one for each Array if
it is a square bracket, one for each Object if it is a brace. -/
theorem count_str (ch : Char) (hch : ch ∈ Spec.brackets) :
    ∀ (t : JsonData) (indent : Int), t.avoids Spec.brackets = true →
      (t.str indent).data.count ch
        = ['[', ']'].count ch * t.count JsonType.Array
          + ['\x7b', '\x7d'].count ch * t.count JsonType.Object
  | JsonData.null, indent, _ => by
    have hnull : JsonData.null.str indent = "null" := rfl
    rw [hnull]
    simp only [Spec.brackets, List.mem_cons, List.mem_singleton, List.not_mem_nil, or_false] at hch
    rcases hch with rfl | rfl | rfl | rfl <;> decide
  | JsonData.string data, _, havoid => by
    have hzero := count_of_avoids Spec.brackets data ch hch havoid
    simp only [JsonData.str, String.data_append, List.count_append, hzero, JsonData.count]
    simp only [Spec.brackets, List.mem_cons, List.mem_singleton, List.not_mem_nil, or_false] at hch
    rcases hch with rfl | rfl | rfl | rfl <;> decide
  | JsonData.number data, indent, _ => by
    rw [count_number ch (List.mem_cons_of_mem _ hch) data indent]
    simp [JsonData.count]
  | JsonData.array m_data, indent, havoid => by
    have hitems := count_strItems ch hch m_data indent havoid
    simp only [JsonData.str, String.data_append, List.count_append, hitems, JsonData.count]
    simp only [Spec.brackets, List.mem_cons, List.mem_singleton, List.not_mem_nil, or_false] at hch
    rcases hch with rfl | rfl | rfl | rfl <;> (simp; try ring)
  | JsonData.object m_data, indent, havoid => by
    have hentries := count_strEntries ch hch m_data indent havoid
    have htabs := count_tabs ch (List.mem_cons_of_mem _ hch) indent
    simp only [JsonData.str, String.data_append, List.count_append, hentries, htabs,
      JsonData.count]
    simp only [Spec.brackets, List.mem_cons, List.mem_singleton, List.not_mem_nil, or_false] at hch
    rcases hch with rfl | rfl | rfl | rfl <;> (simp; try ring)
theorem count_strItems (ch : Char) (hch : ch ∈ Spec.brackets) :
    ∀ (items : List JsonData) (indent : Int), JsonData.avoidsItems Spec.brackets items = true →
      (JsonData.strItems items indent).data.count ch
        = ['[', ']'].count ch * JsonData.countItems JsonType.Array items
          + ['\x7b', '\x7d'].count ch * JsonData.countItems JsonType.Object items
  | [], _, _ => by simp [JsonData.strItems, JsonData.countItems]
  | x :: rest, indent, havoid => by
    simp only [JsonData.avoidsItems, Bool.and_eq_true] at havoid
    have hx := count_str ch hch x (indent + 1) havoid.1
    have hrest := count_strItems ch hch rest indent havoid.2
    have hsep := count_comma ch (List.mem_cons_of_mem _ hch) rest
    simp only [JsonData.strItems, String.data_append, List.count_append, hx, hrest, hsep,
      JsonData.countItems]
    ring
theorem count_strEntries (ch : Char) (hch : ch ∈ Spec.brackets) :
    ∀ (entries : List (String × JsonData)) (indent : Int),
      JsonData.avoidsEntries Spec.brackets entries = true →
      (JsonData.strEntries entries indent).data.count ch
        = ['[', ']'].count ch * JsonData.countEntries JsonType.Array entries
          + ['\x7b', '\x7d'].count ch * JsonData.countEntries JsonType.Object entries
  | [], _, _ => by simp [JsonData.strEntries, JsonData.countEntries]
  | (key, child) :: rest, indent, havoid => by
    simp only [JsonData.avoidsEntries, Bool.and_eq_true] at havoid
    have hkey := count_of_avoids Spec.brackets key ch hch havoid.1.1
    have hchild := count_str ch hch child (indent + 1) havoid.1.2
    have hrest := count_strEntries ch hch rest indent havoid.2
    have hsep := count_entry_comma ch (List.mem_cons_of_mem _ hch) rest
    have htabs := count_tabs ch (List.mem_cons_of_mem _ hch) indent
    have hquote : ("\t\"" : String).data.count ch = 0 := by
      simp only [Spec.brackets, List.mem_cons, List.mem_singleton, List.not_mem_nil,
        or_false] at hch
      rcases hch with rfl | rfl | rfl | rfl <;> decide
    have hcolon : ("\":" : String).data.count ch = 0 := by
      simp only [Spec.brackets, List.mem_cons, List.mem_singleton, List.not_mem_nil,
        or_false] at hch
      rcases hch with rfl | rfl | rfl | rfl <;> decide
    have hnl : ("\n" : String).data.count ch = 0 := by
      simp only [Spec.brackets, List.mem_cons, List.mem_singleton, List.not_mem_nil,
        or_false] at hch
      rcases hch with rfl | rfl | rfl | rfl <;> decide
    simp only [JsonData.strEntries, String.data_append, List.count_append, hkey, hchild, hrest,
      hsep, htabs, hquote, hcolon, hnl, JsonData.countEntries]
    ring
end

/-! ## Bracket nesting -/

theorem prefixBalanced_append (o c : Char) (s t : List Char)
    (hs : Spec.prefixBalanced o c s) (ht : Spec.prefixBalanced o c t) :
    Spec.prefixBalanced o c (s ++ t) := by
  intro k
  rw [List.take_append_eq_append_take, List.count_append, List.count_append]
  exact Nat.add_le_add (hs k) (ht (k - s.length))

theorem prefixBalanced_of_count (o c : Char) (s : List Char) (hfree : s.count c = 0) :
    Spec.prefixBalanced o c s := by
  intro k
  have hle : (s.take k).count c ≤ s.count c := (List.take_sublist k s).count_le c
  omega

theorem prefixBalanced_wrap (o c : Char) (hne : o ≠ c) (s : List Char)
    (hs : Spec.prefixBalanced o c s) : Spec.prefixBalanced o c (o :: (s ++ [c])) := by
  intro k
  cases k with
  | zero => simp
  | succ j =>
    have hco : (c == o) = false := by
      simp only [beq_eq_false_iff_ne, ne_eq]
      exact fun h => hne h.symm
    have hoc : (o == c) = false := by
      simp only [beq_eq_false_iff_ne, ne_eq]
      exact hne
    have hlast : ((List.take (j - s.length) [c]).count c) ≤ 1 := by
      have := (List.take_sublist (j - s.length) [c]).count_le c
      simpa using this
    have hj := hs j
    simp only [List.take_succ_cons, List.take_append_eq_append_take, List.count_cons,
      List.count_append, hco, hoc, beq_self_eq_true, if_true, Bool.false_eq_true, if_false]
    omega

theorem bracket_pair_cases (o c : Char) (hpair : (o, c) ∈ [('[', ']'), ('\x7b', '\x7d')]) :
    (o = '[' ∧ c = ']') ∨ (o = '\x7b' ∧ c = '\x7d') := by
  simp only [List.mem_cons, Prod.mk.injEq, List.mem_singleton, List.not_mem_nil, or_false] at hpair
  exact hpair

theorem closer_mem_brackets (o c : Char) (hpair : (o, c) ∈ [('[', ']'), ('\x7b', '\x7d')]) :
    c ∈ Spec.brackets := by
  rcases bracket_pair_cases o c hpair with ⟨_, rfl⟩ | ⟨_, rfl⟩ <;> decide

mutual
/-- In every prefix of a rendering the closers of a kind do not outnumber its
openers. -/
theorem prefixBalanced_str (o c : Char) (hpair : (o, c) ∈ [('[', ']'), ('\x7b', '\x7d')]) :
    ∀ (t : JsonData) (indent : Int), t.avoids Spec.brackets = true →
      Spec.prefixBalanced o c (t.str indent).data
  | JsonData.null, indent, havoid => by
    apply prefixBalanced_of_count
    rw [count_str c (closer_mem_brackets o c hpair) _ indent havoid]
    simp [JsonData.count]
  | JsonData.string data, indent, havoid => by
    apply prefixBalanced_of_count
    rw [count_str c (closer_mem_brackets o c hpair) _ indent havoid]
    simp [JsonData.count]
  | JsonData.number data, indent, havoid => by
    apply prefixBalanced_of_count
    rw [count_str c (closer_mem_brackets o c hpair) _ indent havoid]
    simp [JsonData.count]
  | JsonData.array m_data, indent, havoid => by
    have hitems := prefixBalanced_strItems o c hpair m_data indent havoid
    simp only [JsonData.str, String.data_append]
    rcases bracket_pair_cases o c hpair with ⟨rfl, rfl⟩ | ⟨rfl, rfl⟩
    · exact prefixBalanced_wrap '[' ']' (by decide) _ hitems
    · exact prefixBalanced_append _ _ _ _
        (prefixBalanced_append _ _ _ _ (prefixBalanced_of_count _ _ _ (by decide)) hitems)
        (prefixBalanced_of_count _ _ _ (by decide))
  | JsonData.object m_data, indent, havoid => by
    have hentries := prefixBalanced_strEntries o c hpair m_data indent havoid
    have htabs : Spec.prefixBalanced o c (tabs indent).data :=
      prefixBalanced_of_count _ _ _
        (count_tabs c (List.mem_cons_of_mem _ (closer_mem_brackets o c hpair)) indent)
    simp only [JsonData.str, String.data_append]
    rcases bracket_pair_cases o c hpair with ⟨rfl, rfl⟩ | ⟨rfl, rfl⟩
    · exact prefixBalanced_append _ _ _ _
        (prefixBalanced_append _ _ _ _
          (prefixBalanced_append _ _ _ _ (prefixBalanced_of_count _ _ _ (by decide)) hentries)
          htabs)
        (prefixBalanced_of_count _ _ _ (by decide))
    · have hinner : Spec.prefixBalanced '\x7b' '\x7d'
          ('\n' :: ((JsonData.strEntries m_data indent).data ++ (tabs indent).data)) :=
        prefixBalanced_append _ _ ['\n'] _ (prefixBalanced_of_count _ _ _ (by decide))
          (prefixBalanced_append _ _ _ _ hentries htabs)
      have hwrap := prefixBalanced_wrap '\x7b' '\x7d' (by decide) _ hinner
      have hdata : ("\x7b\n" : String).data ++ (JsonData.strEntries m_data indent).data
            ++ (tabs indent).data ++ ("\x7d" : String).data
          = '\x7b' :: ('\n' :: ((JsonData.strEntries m_data indent).data ++ (tabs indent).data)
              ++ ['\x7d']) := by
        simp
      rw [hdata]
      exact hwrap
theorem prefixBalanced_strItems (o c : Char)
    (hpair : (o, c) ∈ [('[', ']'), ('\x7b', '\x7d')]) :
    ∀ (items : List JsonData) (indent : Int), JsonData.avoidsItems Spec.brackets items = true →
      Spec.prefixBalanced o c (JsonData.strItems items indent).data
  | [], _, _ => by
    intro k
    simp [JsonData.strItems]
  | x :: rest, indent, havoid => by
    simp only [JsonData.avoidsItems, Bool.and_eq_true] at havoid
    have hx := prefixBalanced_str o c hpair x (indent + 1) havoid.1
    have hrest := prefixBalanced_strItems o c hpair rest indent havoid.2
    have hsep := prefixBalanced_of_count o c _
      (count_comma c (List.mem_cons_of_mem _ (closer_mem_brackets o c hpair)) rest)
    simp only [JsonData.strItems, String.data_append]
    exact prefixBalanced_append _ _ _ _ (prefixBalanced_append _ _ _ _ hx hsep) hrest
theorem prefixBalanced_strEntries (o c : Char)
    (hpair : (o, c) ∈ [('[', ']'), ('\x7b', '\x7d')]) :
    ∀ (entries : List (String × JsonData)) (indent : Int),
      JsonData.avoidsEntries Spec.brackets entries = true →
      Spec.prefixBalanced o c (JsonData.strEntries entries indent).data
  | [], _, _ => by
    intro k
    simp [JsonData.strEntries]
  | (key, child) :: rest, indent, havoid => by
    simp only [JsonData.avoidsEntries, Bool.and_eq_true] at havoid
    have hc := closer_mem_brackets o c hpair
    have hc' : c ∈ '\n' :: Spec.brackets := List.mem_cons_of_mem _ hc
    have hkey := prefixBalanced_of_count o c _ (count_of_avoids Spec.brackets key c hc havoid.1.1)
    have hchild := prefixBalanced_str o c hpair child (indent + 1) havoid.1.2
    have hrest := prefixBalanced_strEntries o c hpair rest indent havoid.2
    have hsep := prefixBalanced_of_count o c _ (count_entry_comma c hc' rest)
    have htabs := prefixBalanced_of_count o c _ (count_tabs c hc' indent)
    have hquote : Spec.prefixBalanced o c ("\t\"" : String).data := by
      apply prefixBalanced_of_count
      rcases bracket_pair_cases o c hpair with ⟨_, rfl⟩ | ⟨_, rfl⟩ <;> decide
    have hcolon : Spec.prefixBalanced o c ("\":" : String).data := by
      apply prefixBalanced_of_count
      rcases bracket_pair_cases o c hpair with ⟨_, rfl⟩ | ⟨_, rfl⟩ <;> decide
    have hnl : Spec.prefixBalanced o c ("\n" : String).data := by
      apply prefixBalanced_of_count
      rcases bracket_pair_cases o c hpair with ⟨_, rfl⟩ | ⟨_, rfl⟩ <;> decide
    simp only [JsonData.strEntries, String.data_append]
    exact prefixBalanced_append _ _ _ _
      (prefixBalanced_append _ _ _ _
        (prefixBalanced_append _ _ _ _
          (prefixBalanced_append _ _ _ _
            (prefixBalanced_append _ _ _ _
              (prefixBalanced_append _ _ _ _ (prefixBalanced_append _ _ _ _ htabs hquote) hkey)
              hcolon)
            hchild)
          hsep)
        hnl)
      hrest
end

/-- C16. For every value tree whose String payloads and keys hold none of the four
bracket characters and for every indent level, in the rendered text every prefix
has at least as many openers as closers of each kind, the numbers of `[` and of
`]` both equal the number of Array nodes, and the numbers of opening and of
closing braces both equal the number of Object nodes. -/
theorem C16_bracket_pairing (t : JsonData) (L : Int) (hfree : t.avoids Spec.brackets = true) :
    Spec.prefixBalanced '[' ']' (t.str L).data ∧
    Spec.prefixBalanced '\x7b' '\x7d' (t.str L).data ∧
    (t.str L).data.count '[' = t.count JsonType.Array ∧
    (t.str L).data.count ']' = t.count JsonType.Array ∧
    (t.str L).data.count '\x7b' = t.count JsonType.Object ∧
    (t.str L).data.count '\x7d' = t.count JsonType.Object := by
  refine ⟨prefixBalanced_str _ _ (by decide) t L hfree,
    prefixBalanced_str _ _ (by decide) t L hfree, ?_, ?_, ?_, ?_⟩
  · rw [count_str '[' (by decide) t L hfree]; simp
  · rw [count_str ']' (by decide) t L hfree]; simp
  · rw [count_str '\x7b' (by decide) t L hfree]; simp
  · rw [count_str '\x7d' (by decide) t L hfree]; simp

/-- Witness for C16 at the Object binding `list` to an Array of 1 and an Object. -/
theorem C16_bracket_pairing_witness :
    Example.nested.avoids Spec.brackets = true ∧
    (Example.nested.str 0).data.count '[' = 1 ∧
    (Example.nested.str 0).data.count '\x7d' = 2 ∧
    Spec.prefixBalanced '\x7b' '\x7d' (Example.nested.str 0).data := by
  have hfree : Example.nested.avoids Spec.brackets = true := by decide
  have hall := C16_bracket_pairing Example.nested 0 hfree
  exact ⟨hfree, hall.2.2.1, hall.2.2.2.2.2, hall.2.1⟩

/-! ## Lines and indentation -/

theorem startsWith_append (p : Nat × Char) (line s : List Char)
    (h : Spec.startsWith p line) : Spec.startsWith p (line ++ s) :=
  ⟨h.1, h.2.1, List.IsPrefix.trans h.2.2 (List.prefix_append line s)⟩

theorem linesStart_append_right (ps : List (Nat × Char)) (t s : List Char)
    (ht : Spec.LinesStart ps t) (hs : '\n' ∉ s) : Spec.LinesStart ps (t ++ s) := by
  induction ps generalizing t with
  | nil =>
    simp only [Spec.LinesStart, List.mem_append, not_or] at ht ⊢
    exact ⟨ht, hs⟩
  | cons p ps ih =>
    obtain ⟨a, rest, rfl, ha, hp, hrest⟩ := ht
    exact ⟨a, rest ++ s, by simp, ha, startsWith_append p rest s hp, ih rest hrest⟩

theorem linesStart_append_left (ps : List (Nat × Char)) (s t : List Char)
    (hs : '\n' ∉ s) (ht : Spec.LinesStart ps t) : Spec.LinesStart ps (s ++ t) := by
  cases ps with
  | nil =>
    simp only [Spec.LinesStart, List.mem_append, not_or] at ht ⊢
    exact ⟨hs, ht⟩
  | cons p ps =>
    obtain ⟨a, rest, rfl, ha, hp, hrest⟩ := ht
    refine ⟨s ++ a, rest, by simp, ?_, hp, hrest⟩
    simp only [List.mem_append, not_or]
    exact ⟨hs, ha⟩

theorem linesStart_append (ps qs : List (Nat × Char)) (t u : List Char)
    (ht : Spec.LinesStart ps t) (hu : Spec.LinesStart qs u) :
    Spec.LinesStart (ps ++ qs) (t ++ u) := by
  induction ps generalizing t with
  | nil => exact linesStart_append_left qs t u ht hu
  | cons p ps ih =>
    obtain ⟨a, rest, rfl, ha, hp, hrest⟩ := ht
    exact ⟨a, rest ++ u, by simp, ha, startsWith_append p rest u hp, ih rest hrest⟩

theorem linesStart_newline (ps qs : List (Nat × Char)) (q : Nat × Char) (t r : List Char)
    (ht : Spec.LinesStart ps t) (hq : Spec.startsWith q r) (hr : Spec.LinesStart qs r) :
    Spec.LinesStart (ps ++ q :: qs) (t ++ '\n' :: r) := by
  induction ps generalizing t with
  | nil => exact ⟨t, r, rfl, ht, hq, hr⟩
  | cons p ps ih =>
    obtain ⟨a, rest, rfl, ha, hp, hrest⟩ := ht
    exact ⟨a, rest ++ '\n' :: r, by simp, ha, startsWith_append p rest _ hp, ih rest hrest⟩

theorem newline_not_mem_tabs (indent : Int) : '\n' ∉ (tabs indent).data := by
  intro hmem
  simp only [tabs, List.mem_replicate] at hmem
  exact absurd hmem.2 (by decide)

theorem prefix_of_prefix_append (pre f x : List Char) (hpre : pre <+: f ++ x)
    (hnl : '\n' ∉ pre) (hx : x = [] ∨ ∃ y, x = '\n' :: y) : pre <+: f := by
  rcases List.prefix_or_prefix_of_prefix hpre (List.prefix_append f x) with h | h
  · exact h
  · obtain ⟨u, rfl⟩ := h
    have hu : u <+: x := (List.prefix_append_right_inj f).1 hpre
    cases u with
    | nil => simp
    | cons ch u' =>
      rcases hx with rfl | ⟨y, rfl⟩
      · simp at hu
      · have hhead : ch = '\n' := by
          obtain ⟨w, hw⟩ := hu
          simp only [List.cons_append, List.cons.injEq] at hw
          exact hw.1
        exact absurd (by simp [hhead]) hnl

/-- The lines of a text whose line starts are prescribed. -/
theorem lines_of_linesStart (ps : List (Nat × Char)) (text : List Char)
    (h : Spec.LinesStart ps text) :
    ∃ (first : List Char) (rest : List (List Char)),
      text = Spec.joinLines first rest ∧ '\n' ∉ first ∧ (∀ line ∈ rest, '\n' ∉ line) ∧
      List.Forall₂ Spec.startsWith ps rest := by
  induction ps generalizing text with
  | nil => exact ⟨text, [], by simp [Spec.joinLines], h, by simp, List.Forall₂.nil⟩
  | cons p ps ih =>
    obtain ⟨a, r, rfl, ha, hp, hr⟩ := h
    obtain ⟨f, rest, rfl, hf, hrest, hall⟩ := ih r hr
    refine ⟨a, f :: rest, by simp [Spec.joinLines], ha, ?_, List.Forall₂.cons ?_ hall⟩
    · intro line hline
      rcases List.mem_cons.1 hline with rfl | hline
      · exact hf
      · exact hrest line hline
    · have hpnl : '\n' ∉ List.replicate p.1 '\t' ++ [p.2] := by
        simp only [List.mem_append, List.mem_replicate, List.mem_singleton, not_or, not_and]
        exact ⟨fun _ => by decide, fun h => hp.2.1 h.symm⟩
      refine ⟨hp.1, hp.2.1, prefix_of_prefix_append _ f _ hp.2.2 hpnl ?_⟩
      cases rest with
      | nil => left; rfl
      | cons l ls => right; exact ⟨_, rfl⟩

theorem newline_not_mem_of_avoids (s : String)
    (havoid : s.data.all (fun c => decide (c ∉ ['\n'])) = true) : '\n' ∉ s.data :=
  not_mem_of_avoids ['\n'] s '\n' (by simp) havoid

theorem tabs_data (d : Nat) : (tabs (d : Int)).data = List.replicate d '\t' := by
  simp [tabs]

mutual
/-- The line starts of a rendering at indent `d` are those the specification
prescribes for a node with `d` enclosing containers. -/
theorem linesStart_str :
    ∀ (t : JsonData) (d : Nat), t.avoids ['\n'] = true →
      Spec.LinesStart (Spec.lineStarts t d) (t.str (d : Int)).data
  | JsonData.null, _, _ => by
    simp only [Spec.lineStarts, Spec.LinesStart, JsonData.str]
    decide
  | JsonData.string data, _, havoid => by
    have hdata := newline_not_mem_of_avoids data havoid
    simp only [Spec.lineStarts, Spec.LinesStart, JsonData.str, String.data_append,
      List.mem_append, not_or]
    exact ⟨⟨by decide, hdata⟩, by decide⟩
  | JsonData.number data, d, _ => by
    simp only [Spec.lineStarts, Spec.LinesStart]
    exact number_text_not_mem data d '\n' (by simp)
  | JsonData.array m_data, d, havoid => by
    have hitems := linesStart_strItems m_data d havoid
    simp only [Spec.lineStarts, JsonData.str, String.data_append]
    exact linesStart_append_right _ _ _ (linesStart_append_left _ _ _ (by decide) hitems)
      (by decide)
  | JsonData.object m_data, d, havoid => by
    have htail : Spec.startsWith (d, '\x7d') ((tabs (d : Int)).data ++ ['\x7d']) := by
      rw [tabs_data]
      exact ⟨show '\x7d' ≠ '\t' by decide, show '\x7d' ≠ '\n' by decide, List.prefix_refl _⟩
    have hnl : Spec.LinesStart [] ((tabs (d : Int)).data ++ ['\x7d']) := by
      simp only [Spec.LinesStart, List.mem_append, not_or]
      exact ⟨newline_not_mem_tabs d, by decide⟩
    obtain ⟨p, ps, heq, hp, hps⟩ :=
      linesStart_strEntries m_data d havoid (d, '\x7d') [] _ htail hnl
    simp only [Spec.lineStarts, heq]
    refine ⟨['\x7b'], _, ?_, by decide, hp, hps⟩
    simp [JsonData.str, String.data_append]
theorem linesStart_strItems :
    ∀ (items : List JsonData) (d : Nat), JsonData.avoidsItems ['\n'] items = true →
      Spec.LinesStart (Spec.lineStartsItems items d) (JsonData.strItems items (d : Int)).data
  | [], _, _ => by
    simp [Spec.lineStartsItems, Spec.LinesStart, JsonData.strItems]
  | x :: rest, d, havoid => by
    simp only [JsonData.avoidsItems, Bool.and_eq_true] at havoid
    have hx := linesStart_str x (d + 1) havoid.1
    rw [Nat.cast_succ] at hx
    have hrest := linesStart_strItems rest d havoid.2
    have hsep : '\n' ∉ (if rest.isEmpty then "" else ", " : String).data := by
      cases rest with
      | nil => decide
      | cons a t =>
        have hs : (if (a :: t).isEmpty then "" else ", " : String) = ", " := rfl
        rw [hs]
        decide
    simp only [Spec.lineStartsItems, JsonData.strItems, String.data_append]
    exact linesStart_append _ _ _ _ (linesStart_append_right _ _ _ hx hsep) hrest
theorem linesStart_strEntries :
    ∀ (entries : List (String × JsonData)) (d : Nat),
      JsonData.avoidsEntries ['\n'] entries = true →
      ∀ (q : Nat × Char) (qs : List (Nat × Char)) (tail : List Char),
        Spec.startsWith q tail → Spec.LinesStart qs tail →
        ∃ (p : Nat × Char) (ps : List (Nat × Char)),
          Spec.lineStartsEntries entries d ++ q :: qs = p :: ps ∧
          Spec.startsWith p ((JsonData.strEntries entries (d : Int)).data ++ tail) ∧
          Spec.LinesStart ps ((JsonData.strEntries entries (d : Int)).data ++ tail)
  | [], _, _ => by
    intro q qs tail hq hqs
    exact ⟨q, qs, rfl, by simpa [JsonData.strEntries] using hq,
      by simpa [JsonData.strEntries] using hqs⟩
  | (key, child) :: rest, d, havoid => by
    intro q qs tail hq hqs
    simp only [JsonData.avoidsEntries, Bool.and_eq_true] at havoid
    have hkey := newline_not_mem_of_avoids key havoid.1.1
    have hchild := linesStart_str child (d + 1) havoid.1.2
    rw [Nat.cast_succ] at hchild
    obtain ⟨p', ps', heq, hp', hps'⟩ := linesStart_strEntries rest d havoid.2 q qs tail hq hqs
    have hsep : '\n' ∉ (if rest.isEmpty then "" else "," : String).data := by
      cases rest with
      | nil => decide
      | cons a t =>
        have hs : (if (a :: t).isEmpty then "" else "," : String) = "," := rfl
        rw [hs]
        decide
    have hpre : '\n' ∉ (tabs (d : Int)).data ++ ("\t\"" : String).data ++ key.data
        ++ ("\":" : String).data := by
      simp only [List.mem_append, not_or]
      exact ⟨⟨⟨newline_not_mem_tabs d, by decide⟩, hkey⟩, by decide⟩
    have hline := linesStart_append_right _ _ _
      (linesStart_append_left _ _ _ hpre hchild) hsep
    have hall := linesStart_newline _ ps' p' _ _ hline hp' hps'
    refine ⟨(d + 1, '\x22'), Spec.lineStarts child (d + 1) ++ (Spec.lineStartsEntries rest d
      ++ q :: qs), ?_, ?_, ?_⟩
    · simp [Spec.lineStartsEntries]
    · refine ⟨show '\x22' ≠ '\t' by decide, show '\x22' ≠ '\n' by decide, key.data ++ ("\":" : String).data ++ (child.str ((d : Int) + 1)).data
        ++ (if rest.isEmpty then "" else "," : String).data ++ ("\n" : String).data
        ++ (JsonData.strEntries rest (d : Int)).data ++ tail, ?_⟩
      simp [JsonData.strEntries, String.data_append, tabs_data, List.replicate_succ',
        List.append_assoc]
    · rw [heq]
      have htext : (JsonData.strEntries ((key, child) :: rest) (d : Int)).data ++ tail
          = ((tabs (d : Int)).data ++ ("\t\"" : String).data ++ key.data
              ++ ("\":" : String).data ++ (child.str ((d : Int) + 1)).data
              ++ (if rest.isEmpty then "" else "," : String).data)
            ++ '\n' :: ((JsonData.strEntries rest (d : Int)).data ++ tail) := by
        simp [JsonData.strEntries, String.data_append, List.append_assoc]
      rw [htext]
      exact hall
end

/-- C15. For every value tree whose Strings and keys hold no newline, rendered at
indent 0, the text splits at its newlines into a first line and further lines;
the further lines are, in order, the entry lines and the closing-brace lines of
the Objects, and the entry line of an Object with `d` enclosing containers
begins with exactly `d+1` tabs followed by the double quote, its closing-brace
line with exactly `d` tabs followed by the closing brace. For the Object binding
`list` to the Array of 1 and of the Object binding `k` to 1 the further lines
start with 1 tab, 3 tabs, 2 tabs and 0 tabs. -/
theorem C15_indentation_by_depth (t : JsonData) (hfree : t.avoids ['\n'] = true) :
    (∃ (first : List Char) (rest : List (List Char)),
      (t.str 0).data = Spec.joinLines first rest ∧
      '\n' ∉ first ∧ (∀ line ∈ rest, '\n' ∉ line) ∧
      List.Forall₂ Spec.startsWith (Spec.lineStarts t 0) rest) ∧
    Spec.lineStarts Example.nested 0 = [(1, '\x22'), (3, '\x22'), (2, '\x7d'), (0, '\x7d')] ∧
    Example.nested.str 0 = "\x7b\n\t\"list\":[1, \x7b\n\t\t\t\"k\":1\n\t\t\x7d]\n\x7d" := by
  refine ⟨?_, rfl, rfl⟩
  have hlines := linesStart_str t 0 hfree
  simp only [Nat.cast_zero] at hlines
  exact lines_of_linesStart _ _ hlines

/-- Witness for C15 at the Object binding `list` to the Array of 1 and of the
Object binding `k` to 1. -/
theorem C15_indentation_by_depth_witness :
    Example.nested.avoids ['\n'] = true ∧
    ∃ (first : List Char) (rest : List (List Char)),
      (Example.nested.str 0).data = Spec.joinLines first rest ∧
      '\n' ∉ first ∧ (∀ line ∈ rest, '\n' ∉ line) ∧
      List.Forall₂ Spec.startsWith (Spec.lineStarts Example.nested 0) rest :=
  ⟨by decide, (C15_indentation_by_depth Example.nested (by decide)).1⟩

/-! ## Where the operations are defined -/

theorem add_max_le_iff (L M : Int) (a b : Nat) :
    L + ((max a b : Nat) : Int) ≤ M ↔ L + (a : Int) ≤ M ∧ L + (b : Int) ≤ M := by
  rcases Nat.le_total a b with hab | hab
  · rw [max_eq_right hab]; omega
  · rw [max_eq_left hab]; omega

mutual
/-- The checked rendering is defined exactly while the indent plus the depth stays
an `int`, and is then the rendering. -/
theorem strChecked_eq :
    ∀ (t : JsonData) (indent : Int), indent ≤ INT_MAX →
      t.strChecked indent
        = if indent + (t.depth : Int) ≤ INT_MAX then some (t.str indent) else none
  | JsonData.null, indent, hint => by
    simp [JsonData.strChecked, JsonData.depth, JsonData.str, hint]
  | JsonData.string data, indent, hint => by
    simp [JsonData.strChecked, JsonData.depth, JsonData.str, hint]
  | JsonData.number (NumberData.int v), indent, hint => by
    simp [JsonData.strChecked, JsonData.depth, JsonData.str, hint]
  | JsonData.number (NumberData.float f), indent, hint => by
    simp [JsonData.strChecked, JsonData.depth, JsonData.str, hint]
  | JsonData.array m_data, indent, hint => by
    rw [JsonData.strChecked, strItemsChecked_eq m_data indent hint, JsonData.depth, JsonData.str]
    split <;> rfl
  | JsonData.object m_data, indent, hint => by
    rw [JsonData.strChecked, strEntriesChecked_eq m_data indent hint, JsonData.depth,
      JsonData.str]
    split <;> rfl
theorem strItemsChecked_eq :
    ∀ (items : List JsonData) (indent : Int), indent ≤ INT_MAX →
      JsonData.strItemsChecked items indent
        = if indent + (JsonData.depthItems items : Int) ≤ INT_MAX
          then some (JsonData.strItems items indent) else none
  | [], indent, hint => by
    simp [JsonData.strItemsChecked, JsonData.depthItems, JsonData.strItems, hint]
  | x :: rest, indent, hint => by
    have hrest := strItemsChecked_eq rest indent hint
    rw [JsonData.strItemsChecked, JsonData.depthItems, JsonData.strItems]
    by_cases hstep : indent + 1 ≤ INT_MAX
    · have hx := strChecked_eq x (indent + 1) hstep
      rw [if_pos hstep, hx, hrest]
      by_cases h1 : indent + 1 + (x.depth : Int) ≤ INT_MAX
      · by_cases h2 : indent + (JsonData.depthItems rest : Int) ≤ INT_MAX
        · have hboth : indent + ((max (x.depth + 1) (JsonData.depthItems rest) : Nat) : Int)
              ≤ INT_MAX := (add_max_le_iff _ _ _ _).2 ⟨by push_cast; omega, h2⟩
          rw [if_pos h1, if_pos h2, if_pos hboth]
        · have hnot : ¬ indent + ((max (x.depth + 1) (JsonData.depthItems rest) : Nat) : Int)
              ≤ INT_MAX := fun h => h2 ((add_max_le_iff _ _ _ _).1 h).2
          rw [if_pos h1, if_neg h2, if_neg hnot]
      · have hnot : ¬ indent + ((max (x.depth + 1) (JsonData.depthItems rest) : Nat) : Int)
            ≤ INT_MAX := fun h => h1 (by
          have := ((add_max_le_iff _ _ _ _).1 h).1
          push_cast at this
          omega)
        rw [if_neg h1, if_neg hnot]
    · have hnot : ¬ indent + ((max (x.depth + 1) (JsonData.depthItems rest) : Nat) : Int)
          ≤ INT_MAX := fun h => hstep (by
        have := ((add_max_le_iff _ _ _ _).1 h).1
        push_cast at this
        omega)
      rw [if_neg hstep, if_neg hnot]
theorem strEntriesChecked_eq :
    ∀ (entries : List (String × JsonData)) (indent : Int), indent ≤ INT_MAX →
      JsonData.strEntriesChecked entries indent
        = if indent + (JsonData.depthEntries entries : Int) ≤ INT_MAX
          then some (JsonData.strEntries entries indent) else none
  | [], indent, hint => by
    simp [JsonData.strEntriesChecked, JsonData.depthEntries, JsonData.strEntries, hint]
  | (key, child) :: rest, indent, hint => by
    have hrest := strEntriesChecked_eq rest indent hint
    rw [JsonData.strEntriesChecked, JsonData.depthEntries, JsonData.strEntries]
    by_cases hstep : indent + 1 ≤ INT_MAX
    · have hx := strChecked_eq child (indent + 1) hstep
      rw [if_pos hstep, hx, hrest]
      by_cases h1 : indent + 1 + (child.depth : Int) ≤ INT_MAX
      · by_cases h2 : indent + (JsonData.depthEntries rest : Int) ≤ INT_MAX
        · have hboth : indent
              + ((max (child.depth + 1) (JsonData.depthEntries rest) : Nat) : Int)
              ≤ INT_MAX := (add_max_le_iff _ _ _ _).2 ⟨by push_cast; omega, h2⟩
          rw [if_pos h1, if_pos h2, if_pos hboth]
        · have hnot : ¬ indent
              + ((max (child.depth + 1) (JsonData.depthEntries rest) : Nat) : Int)
              ≤ INT_MAX := fun h => h2 ((add_max_le_iff _ _ _ _).1 h).2
          rw [if_pos h1, if_neg h2, if_neg hnot]
      · have hnot : ¬ indent
            + ((max (child.depth + 1) (JsonData.depthEntries rest) : Nat) : Int)
            ≤ INT_MAX := fun h => h1 (by
          have := ((add_max_le_iff _ _ _ _).1 h).1
          push_cast at this
          omega)
        rw [if_neg h1, if_neg hnot]
    · have hnot : ¬ indent
          + ((max (child.depth + 1) (JsonData.depthEntries rest) : Nat) : Int)
          ≤ INT_MAX := fun h => hstep (by
        have := ((add_max_le_iff _ _ _ _).1 h).1
        push_cast at this
        omega)
      rw [if_neg hstep, if_neg hnot]
end

theorem toInt?_finite (s : Bool) (m : Nat) (e : Int) :
    (Float32.finite s m e).toInt?
      = if -2 ^ 31 ≤ Spec.trunc ((if s then -1 else 1) * (m : ℚ) * 2 ^ e) ∧
            Spec.trunc ((if s then -1 else 1) * (m : ℚ) * 2 ^ e) < 2 ^ 31
        then some (Spec.trunc ((if s then -1 else 1) * (m : ℚ) * 2 ^ e)) else none := by
  have hx : (0 : ℚ) ≤ (m : ℚ) * 2 ^ e := by positivity
  have htrunc : Spec.trunc ((if s then -1 else 1) * (m : ℚ) * 2 ^ e)
      = if s then -((if 0 ≤ e then m * 2 ^ e.toNat else m / 2 ^ (-e).toNat : Nat) : Int)
        else ((if 0 ≤ e then m * 2 ^ e.toNat else m / 2 ^ (-e).toNat : Nat) : Int) := by
    rw [mul_assoc, trunc_signed s _ hx, floor_magnitude]
  rw [htrunc]
  rfl

theorem find_erase_self (m : List (String × JsonData)) (key : String) :
    UMap.find (UMap.erase m key) key = none := by
  rw [find_eq_none_iff]
  simp [UMap.erase]

theorem find_erase_other (m : List (String × JsonData)) (key other : String)
    (hne : other ≠ key) : UMap.find (UMap.erase m key) other = UMap.find m other := by
  induction m with
  | nil => rfl
  | cons e rest ih =>
    obtain ⟨k, v⟩ := e
    by_cases hk : k = key
    · have hko : ¬ k = other := fun hh => hne (hh ▸ hk)
      have hstep : UMap.erase ((k, v) :: rest) key = UMap.erase rest key := by
        simp [UMap.erase, hk]
      rw [hstep, find_cons, if_neg hko, ih]
    · have hstep : UMap.erase ((k, v) :: rest) key = (k, v) :: UMap.erase rest key := by
        simp [UMap.erase, hk]
      rw [hstep, find_cons, find_cons, ih]

theorem length_erase_of_nodup (m : List (String × JsonData)) (key : String)
    (hnodup : (m.map Prod.fst).Nodup) (hmem : key ∈ m.map Prod.fst) :
    (UMap.erase m key).length + 1 = m.length := by
  induction m with
  | nil => simp at hmem
  | cons e rest ih =>
    obtain ⟨k, v⟩ := e
    simp only [List.map_cons, List.nodup_cons] at hnodup
    by_cases hk : k = key
    · subst hk
      have hrest : UMap.erase rest k = rest := by
        simp only [UMap.erase, List.filter_eq_self, decide_eq_true_eq]
        intro a ha hak
        exact hnodup.1 (hak ▸ List.mem_map_of_mem Prod.fst ha)
      have hstep : UMap.erase ((k, v) :: rest) k = UMap.erase rest k := by
        simp [UMap.erase]
      rw [hstep, hrest]
      rfl
    · have hstep : UMap.erase ((k, v) :: rest) key = (k, v) :: UMap.erase rest key := by
        simp [UMap.erase, hk]
      have hmem' : key ∈ rest.map Prod.fst := by
        simp only [List.map_cons, List.mem_cons] at hmem
        rcases hmem with h | h
        · exact absurd h.symm hk
        · exact h
      rw [hstep, List.length_cons, List.length_cons, ih hnodup.2 hmem']

/-- C17 as stated fails: `pop_back()` on the Array of size 0 has no defined result,
`std::vector::pop_back` requiring a non-empty vector. -/
theorem C17_undefined_operations :
    JsonArray.default.size = 0 ∧ JsonArray.default.pop_back = none ∧
    ¬ ∃ a : JsonArray, JsonArray.default.pop_back = some a := by
  refine ⟨rfl, rfl, ?_⟩
  rintro ⟨a, ha⟩
  exact absurd ha (by simp [JsonArray.pop_back, JsonArray.default])

/-- C17 (as the code has it). Over well-formed trees and for an indent `L` that is
an `int`: `str(L)` returns its text exactly when `L` plus the depth of the tree
does not exceed `INT_MAX`, no `indent+1` then overflowing; `push_back`, `size`,
`insert`, `erase` and `asFloat` have a result for every receiver and argument,
the one stated here; `pop_back` has one exactly on an Array of size at least 1,
the Array without its last child; `asInteger` has one on every Number holding
an `int`, and on a Number holding a float exactly when the float is finite and
its value truncated toward zero is a 32-bit signed integer. -/
theorem C17_operations_defined (x : JsonData) (L : Int) (a : JsonArray) (item : JsonData)
    (h : HashOrder) (o : JsonObject) (key : String) (value : JsonData)
    (hL : -2147483648 ≤ L ∧ L ≤ INT_MAX) :
    (x.strChecked L = if L + (x.depth : Int) ≤ INT_MAX then some (x.str L) else none) ∧
    ((a.push_back item).data = a.data ++ [item] ∧ (a.push_back item).size = a.size + 1 ∧
      a.size = a.data.length) ∧
    (a.pop_back = if 1 ≤ a.size then some ⟨a.data.take (a.size - 1)⟩ else none) ∧
    ((o.insert h key value).find key = some value ∧
      (o.insert h key value).size = (if o.contains key then o.size else o.size + 1) ∧
      o.size = o.data.length) ∧
    ((o.erase key).find key = none ∧
      (∀ other : String, other ≠ key → (o.erase key).find other = o.find other) ∧
      (o.erase key).size ≤ o.size ∧
      (o.contains key = false → (o.erase key).data = o.data) ∧
      ((o.data.map Prod.fst).Nodup → o.contains key = true →
        (o.erase key).size + 1 = o.size)) ∧
    ((∀ f : Float32, (JsonNumber.ofFloat f).asFloat = f) ∧
      (∀ n : Int, (JsonNumber.ofInt n).asFloat = Float32.ofInt n) ∧
      (∀ n : Int, n.natAbs < 2 ^ 24 → (JsonNumber.ofInt n).asFloat.value = some (n : ℚ))) ∧
    ((∀ n : Int, (JsonNumber.ofInt n).asInteger = some (Float32.ofInt n)) ∧
      (∀ (g : Float32) (q : ℚ), g.value = some q →
        (JsonNumber.ofFloat g).asInteger
          = if -2 ^ 31 ≤ Spec.trunc q ∧ Spec.trunc q < 2 ^ 31
            then some (Float32.ofInt (Spec.trunc q)) else none) ∧
      (∀ g : Float32, g.value = none → (JsonNumber.ofFloat g).asInteger = none)) := by
  refine ⟨strChecked_eq x L hL.2, ⟨rfl, ?_, rfl⟩, ?_, ⟨?_, ?_, rfl⟩, ⟨?_, ?_, ?_, ?_, ?_⟩,
    ⟨fun _ => rfl, fun _ => rfl, fun n hn => value_ofInt_of_small n hn⟩, ⟨fun _ => rfl, ?_, ?_⟩⟩
  · simp [JsonArray.size, JsonArray.push_back]
  · obtain ⟨m_data⟩ := a
    cases m_data with
    | nil => rfl
    | cons c t =>
      simp [JsonArray.pop_back, JsonArray.size, JsonArray.data, List.dropLast_eq_take]
  · exact find_insert_or_assign_self h o.m_data key value
  · exact length_insert_or_assign h o.m_data key value
  · exact find_erase_self o.m_data key
  · exact fun other hne => find_erase_other o.m_data key other hne
  · simp only [JsonObject.size, JsonObject.erase, UMap.erase]
    exact List.length_filter_le _ _
  · intro hc
    have hnot : key ∉ o.m_data.map Prod.fst := by
      intro hmem
      have := (contains_iff o.m_data key).2 hmem
      rw [JsonObject.contains] at hc
      rw [hc] at this
      exact absurd this (by simp)
    simp only [JsonObject.data, JsonObject.erase, UMap.erase, List.filter_eq_self,
      decide_eq_true_eq]
    intro e he hek
    exact hnot (hek ▸ List.mem_map_of_mem Prod.fst he)
  · intro hnodup hc
    exact length_erase_of_nodup o.m_data key hnodup ((contains_iff o.m_data key).1 hc)
  · intro g q hq
    cases g with
    | inf s => simp [Float32.value] at hq
    | nan s => simp [Float32.value] at hq
    | finite s m e =>
      simp only [Float32.value, Option.some.injEq] at hq
      subst hq
      simp only [JsonNumber.asInteger, JsonNumber.ofFloat, toInt?_finite]
      by_cases hfit : -2 ^ 31 ≤ Spec.trunc ((if s then -1 else 1) * (m : ℚ) * 2 ^ e) ∧
          Spec.trunc ((if s then -1 else 1) * (m : ℚ) * 2 ^ e) < 2 ^ 31
      · rw [if_pos hfit, if_pos hfit]; rfl
      · rw [if_neg hfit, if_neg hfit]; rfl
  · intro g hg
    cases g with
    | inf s => rfl
    | nan s => rfl
    | finite s m e => simp [Float32.value] at hg

/-- Witness for C17: an Array of one Null rendered at the indent 0 and at the
indent `INT_MAX`. -/
theorem C17_operations_defined_witness :
    (-2147483648 ≤ (0 : Int) ∧ (0 : Int) ≤ INT_MAX) ∧
    (-2147483648 ≤ INT_MAX ∧ INT_MAX ≤ INT_MAX) ∧
    (JsonData.array [JsonData.null]).strChecked 0
      = (if (0 : Int) + ((JsonData.array [JsonData.null]).depth : Int) ≤ INT_MAX
          then some ((JsonData.array [JsonData.null]).str 0) else none) ∧
    (JsonData.array [JsonData.null]).strChecked INT_MAX
      = (if INT_MAX + ((JsonData.array [JsonData.null]).depth : Int) ≤ INT_MAX
          then some ((JsonData.array [JsonData.null]).str INT_MAX) else none) :=
  ⟨by decide, by decide,
   (C17_operations_defined (JsonData.array [JsonData.null]) 0 JsonArray.default JsonData.null
      HashOrder.front JsonObject.default "a" JsonData.null (by decide)).1,
   (C17_operations_defined (JsonData.array [JsonData.null]) INT_MAX JsonArray.default
      JsonData.null HashOrder.front JsonObject.default "a" JsonData.null (by decide)).1⟩

end JsonParse
